import Mathlib

/-!
# npm-oss-generator: a shallow embedding of `main.go`

The development models the four functions of `main.go` that the report is built from:

* `getJson`   (lines 38-94): read one `package.json`, decode it, filter by the white list;
* `pathWalk`  (lines 96-126): enumerate the `package.json` files below a root directory;
* the gather loop of `main` (lines 204-230);
* the sort and the serialisation of `main` (lines 232-243).

Conventions.

* A file is either unreadable, or holds bytes.  The bytes are represented by what the JSON
  scanner of `encoding/json` makes of them: `Content.malformed` for a syntax error and
  `Content.value v` for a well-formed document `v`.  Objects keep their members in document
  order, duplicates included, because `encoding/json` processes members one after another.
* A panic (`logger.Panic`, a failed type assertion, an index out of range, a nil dereference)
  aborts the process; it is the `Except.error` result of the embedding.
* `getJson` either panics, returns without sending (`Except.ok none`) or sends one record on
  the channel (`Except.ok (some d)`).
* The channel of `main` is unbuffered: a goroutine that reaches line 93 stays blocked in its
  send until `main` receives.  A run of the gather loop is therefore described by the
  sequence `arrivals` of the records `main` receives, which lists offered records, each at
  most once, in an order the scheduler chooses; while `main` keeps receiving, every offered
  record is delivered in the end.  The loop consumes this sequence from the front.
* `sort.Slice` and `json.Marshal` are library routines.  `sort.Slice` is embedded as the
  routine of the standard library (`sortSlice`); the theorems on the gather loop hold for every
  routine that keeps what `sort.Slice` documents (`SortSlice`), of which `sortSlice` is one.
  `json.Marshal` is represented by the object it writes (keys and values in order), not by the
  bytes.
-/

namespace NpmOss

/-! ## Data model -/

/-- The `Dependency` struct of `main.go`, lines 23-30; the zero value has six empty strings. -/
structure Dependency where
  Name : String := ""
  Version : String := ""
  Description : String := ""
  Homepage : String := ""
  AbsPath : String := ""
  License : String := ""
deriving DecidableEq, Repr, Inhabited

/-- A JSON document as `encoding/json` scans it.  Object members are kept in document order.
The payload of a number is never inspected by the program; an integer stands for it. -/
inductive JSON where
  | null : JSON
  | bool (b : Bool) : JSON
  | num (n : Int) : JSON
  | str (s : String) : JSON
  | arr (xs : List JSON) : JSON
  | obj (kvs : List (String × JSON)) : JSON
deriving Inhabited

/-- The bytes of a file, as seen by the scanner of `encoding/json`. -/
inductive Content where
  | malformed : Content
  | value (v : JSON) : Content
deriving Inhabited

/-- The result of `ioutil.ReadFile`. -/
inductive FileData where
  | unreadable : FileData
  | bytes (c : Content) : FileData
deriving Inhabited

/-- The ways in which `getJson` aborts the process. -/
inductive Failure where
  /-- Line 41: `logger.Panic("Read file error", ...)`. -/
  | readFile
  /-- Lines 54-57, 63, 66, 69: a failed `.(string)` assertion. -/
  | typeAssertion
  /-- Line 61: `rt.Kind()` on the nil `reflect.Type` of a nil interface. -/
  | nilType
  /-- Line 69: `arrayLicense[0]` on an empty slice. -/
  | indexOutOfRange
  /-- Line 71: `logger.Panic("License property type is neither a string, map or array...")`. -/
  | licenseKind
deriving DecidableEq, Repr, Inhabited

deriving instance DecidableEq for Except

/-! ## `encoding/json`: decoding into the `Dependency` struct -/

/-- The six exported fields of `Dependency`, in declaration order. -/
inductive Field where
  | Name | Version | Description | Homepage | AbsPath | License
deriving DecidableEq, Repr, Inhabited

/-- The JSON name of a field: the struct has no tags, so it is the Go field name. -/
def Field.jsonName : Field → String
  | .Name => "Name"
  | .Version => "Version"
  | .Description => "Description"
  | .Homepage => "Homepage"
  | .AbsPath => "AbsPath"
  | .License => "License"

/-- All fields, in declaration order. -/
def Field.all : List Field :=
  [.Name, .Version, .Description, .Homepage, .AbsPath, .License]

/-- Case folding of one rune as far as it matters for matching the six ASCII field names:
ASCII lower case letters go to upper case, and the only two non-ASCII runes whose simple fold
orbit contains an ASCII letter (U+017F, the long s, and U+212A, the Kelvin sign) go to that
letter.  Every other rune is left alone; such a rune never folds to an ASCII letter. -/
def foldRune (c : Char) : Char :=
  if 97 ≤ c.toNat ∧ c.toNat ≤ 122 then Char.ofNat (c.toNat - 32)
  else if c.toNat = 0x17F then 'S'
  else if c.toNat = 0x212A then 'K'
  else c

/-- The folded form of a key: `foldName` of `encoding/json`. -/
def foldName (s : String) : List Char := s.data.map foldRune

/-- The field an object key is decoded into: an exact match of the field name is preferred,
otherwise the first field whose name equals the key under case folding; `none` when the key
matches no field (the member is then skipped). -/
def findField (key : String) : Option Field :=
  match Field.all.find? (fun f => f.jsonName == key) with
  | some f => some f
  | none => Field.all.find? (fun f => foldName f.jsonName == foldName key)

/-- Assignment of a string to one field. -/
def Dependency.set (d : Dependency) (f : Field) (s : String) : Dependency :=
  match f with
  | .Name => { d with Name := s }
  | .Version => { d with Version := s }
  | .Description => { d with Description := s }
  | .Homepage => { d with Homepage := s }
  | .AbsPath => { d with AbsPath := s }
  | .License => { d with License := s }

/-- Decoding one JSON value into a field of Go type `string`: a string is stored, `null` leaves
the field unchanged without error, anything else leaves the field unchanged and reports an
`UnmarshalTypeError` (the flag). -/
def decodeField (d : Dependency) (f : Field) (v : JSON) : Dependency × Bool :=
  match v with
  | .str s => (d.set f s, false)
  | .null => (d, false)
  | _ => (d, true)

/-- One member of the object being decoded into the struct.  The error flag is sticky: the
decoder records the first type error and carries on with the remaining members. -/
def decodeMember (acc : Dependency × Bool) (kv : String × JSON) : Dependency × Bool :=
  match findField kv.1 with
  | none => acc
  | some f => ((decodeField acc.1 f kv.2).1, acc.2 || (decodeField acc.1 f kv.2).2)

/-- The call `json.Unmarshal(b, &d)` of line 45: the struct after the call and whether the call
returned an error.  A syntax error leaves `d` untouched; `null` is accepted and changes
nothing; a document that is not an object is a type error. -/
def unmarshalDependency (b : Content) (d : Dependency) : Dependency × Bool :=
  match b with
  | .malformed => (d, true)
  | .value .null => (d, false)
  | .value (.obj kvs) => kvs.foldl decodeMember (d, false)
  | .value _ => (d, true)

/-! ## `encoding/json`: decoding into `map[string]interface{}` -/

/-- The call `json.Unmarshal(b, &m)` of line 49 on the empty map `m`: the members that were
stored, in the order of the assignments.  On an error (which line 50 never looks at) the map
stays empty. -/
def unmarshalMap (b : Content) : List (String × JSON) :=
  match b with
  | .value (.obj kvs) => kvs
  | _ => []

/-- The index expression `m[k]` on a map filled by the assignments `m` in order: the value
assigned last under `k`.  The nil interface (key absent, or JSON `null`) is `JSON.null`. -/
def mapIndex (m : List (String × JSON)) (k : String) : JSON :=
  m.foldl (fun acc kv => if kv.1 = k then kv.2 else acc) .null

/-- The type assertion `x.(string)`: it panics unless the dynamic type is `string`. -/
def assertString (x : JSON) : Except Failure String :=
  match x with
  | .str s => .ok s
  | _ => .error .typeAssertion

/-! ## `getJson` -/

/-- Lines 60-72: the switch on `reflect.TypeOf(m["license"]).Kind()`. -/
def licenseString (x : JSON) : Except Failure String :=
  match x with
  | .null => .error .nilType
  | .str s => .ok s
  | .obj mapLicense => assertString (mapIndex mapLicense "type")
  | .arr arrayLicense =>
    match arrayLicense with
    | [] => .error .indexOutOfRange
    | x0 :: _ => assertString x0
  | _ => .error .licenseKind

/-- Lines 48-72: the branch taken when the typed decode reported an error. -/
def fallback (b : Content) (d : Dependency) : Except Failure Dependency := do
  let m := unmarshalMap b
  let name ← assertString (mapIndex m "name")
  let version ← assertString (mapIndex m "version")
  let description ← assertString (mapIndex m "description")
  let homepage ← assertString (mapIndex m "homepage")
  let license ← licenseString (mapIndex m "license")
  pure { d with Name := name, Version := version, Description := description,
                Homepage := homepage, License := license }

/-- Lines 43-73: the record `d` as it stands before the white list is consulted. -/
def decode (b : Content) : Except Failure Dependency :=
  let r := unmarshalDependency b {}
  if r.2 then fallback b r.1 else .ok r.1

/-- Lines 75-93: the white list filter and the send.  `none`: return without sending. -/
def filterSend (path : String) (whiteList : List String) (d : Dependency) :
    Option Dependency :=
  if whiteList.length > 0 ∧ ¬ whiteList.any (fun v => v == d.Name) then none
  else some { d with AbsPath := path }

/-- The function `getJson` of lines 38-94, on a file system `fs`. -/
def getJson (fs : String → FileData) (path : String) (whiteList : List String) :
    Except Failure (Option Dependency) :=
  match fs path with
  | .unreadable => .error .readFile
  | .bytes b =>
    match decode b with
    | .error e => .error e
    | .ok d => .ok (filterSend path whiteList d)

/-! ## `pathWalk` -/

/-- A directory tree as `filepath.Walk` meets it.  The children of a directory are listed in
the order in which `Walk` visits them (lexical order of the names). -/
inductive Node where
  /-- An entry that `Lstat` can stat and that is not a directory. -/
  | file (name : String) : Node
  /-- A directory that can be read. -/
  | dir (name : String) (children : List Node) : Node
  /-- A directory that `Lstat` can stat but whose listing fails (permission denied). -/
  | unreadableDir (name : String) : Node
  /-- An entry on which `Lstat` fails. -/
  | broken (name : String) : Node
deriving Inhabited

/-- The base name of an entry. -/
def Node.name : Node → String
  | .file n => n
  | .dir n _ => n
  | .unreadableDir n => n
  | .broken n => n

/-- The part of `os.FileInfo` that the callback reads: `IsDir()` and `Name()`. -/
structure FileInfo where
  IsDir : Bool
  Name : String
deriving DecidableEq, Repr, Inhabited

/-- The callback of lines 99-120.  The state is the slice `deps`; the Boolean is `true` when the
callback returns a non-nil error.  With `err` set, `info` is not looked at. -/
def walkFn (root path : String) (info : FileInfo) (err : Bool) (deps : List String) :
    List String × Bool :=
  if err then (deps, true)
  else if info.IsDir ∧ path = root then (deps, false)
  else if info.IsDir then (deps, false)
  else if info.Name = "package.json" then (deps ++ [path], false)
  else (deps, false)

/-- The path of a child: `filepath.Join(path, name)` for a `path` in the form `filepath.Clean`
returns (no trailing separator, no `.` or `..` element), which `Join` then leaves as it is. -/
def join (path name : String) : String := path ++ "/" ++ name

mutual
/-- The function `walk` of `path/filepath` with the callback `walkFn root`; for an entry that
`Lstat` cannot stat it is the call of the callback with that error, which `Walk` and the loop
of `walk` make in place of `walk`.  A non-nil error of the callback (it never is `SkipDir`)
ends the walk. -/
def walk (root path : String) (n : Node) (deps : List String) : List String × Bool :=
  match n with
  | .file name => walkFn root path ⟨false, name⟩ false deps
  | .dir name children =>
    let r := walkFn root path ⟨true, name⟩ false deps
    if r.2 then r else walkNames root path children r.1
  | .unreadableDir name => walkFn root path ⟨true, name⟩ true deps
  | .broken name => walkFn root path ⟨false, name⟩ true deps
/-- The loop of `walk` over the names of a directory. -/
def walkNames (root path : String) (ns : List Node) (deps : List String) :
    List String × Bool :=
  match ns with
  | [] => (deps, false)
  | n :: rest =>
    let r := walk root (join path n.name) n deps
    if r.2 then r else walkNames root path rest r.1
end

/-- The call `filepath.Walk(root, fn)` of line 99: the slice `deps` after the call, and whether
`Walk` returned an error. -/
def Walk (root : String) (tree : Node) : List String × Bool :=
  walk root root tree []

/-- The function `pathWalk` of lines 96-126.  The value returned by `filepath.Walk` is dropped
(line 99 is an expression statement); only the length of `deps` decides the result. -/
def pathWalk (root : String) (tree : Node) : Except String (List String) :=
  let deps := (Walk root tree).1
  if deps.length < 1 then
    .error "Failed to find any dependencies! Check your node_modules path."
  else .ok deps

/-! ## `main`: gathering, sorting, serialising -/

/-- Lines 211-214: the number of messages the gather loop waits for. -/
def depsCount (deps dependencyWhitelist : List String) : Nat :=
  if dependencyWhitelist.length > 0 then dependencyWhitelist.length else deps.length

/-- The records that the goroutines of lines 205-209 offer on the channel: one per path whose
`getJson` reaches line 93. -/
def offers (fs : String → FileData) (deps dependencyWhitelist : List String) :
    List Dependency :=
  deps.filterMap (fun v =>
    match getJson fs v dependencyWhitelist with
    | .ok (some d) => some d
    | _ => none)

/-- The loop `chListener` of lines 217-230 on the sequence of messages that the channel
delivers, in delivery order.  `none`: the loop blocks for ever on a channel nobody sends on
any more. -/
def chListener (depsCount : Nat) (arrivals : List Dependency) (processed : Nat)
    (s : List Dependency) : Option (List Dependency) :=
  match arrivals with
  | [] => none
  | msg :: rest =>
    if processed + 1 = depsCount then some (s ++ [msg])
    else chListener depsCount rest (processed + 1) (s ++ [msg])

/-- The comparison function of line 233.  Go compares strings byte by byte; on UTF-8 text that
is the lexicographic order of the code points, the order of the character lists. -/
def less (a b : Dependency) : Bool := decide (a.Name.data < b.Name.data)

/-! ## `sort.Slice`

The routine of the Go standard library (`sort/zsortfunc.go`, Go 1.19 and later: pattern-defeating
quicksort), transcribed function by function.  The slice is the function from index to element;
`Less` and `Swap` are the two operations the sort uses.  Integers are 64 bits wide; every index
the routine forms is a natural number.  A Go loop is a function by recursion on its variant. -/

/-- `data.Less(i, j)`: the closure of line 233 on the slice `data`. -/
def Less (data : Nat → Dependency) (i j : Nat) : Bool := less (data i) (data j)

/-- `data.Swap(i, j)`. -/
def Swap (data : Nat → Dependency) (i j : Nat) : Nat → Dependency :=
  fun k => if k = i then data j else if k = j then data i else data k

/-- The inner loop of `insertionSort_func`, `for j := i; j > a && data.Less(j, j-1); j--`,
started at `j = a + k`. -/
def insertionInner (a : Nat) : (k : Nat) → (Nat → Dependency) → (Nat → Dependency)
  | 0, data => data
  | k + 1, data =>
    if Less data (a + k + 1) (a + k) then insertionInner a k (Swap data (a + k + 1) (a + k))
    else data

/-- The outer loop of `insertionSort_func`, `for i := a + 1; i < b; i++`, with `m = b - i`
iterations left. -/
def insertionOuter (a : Nat) : (m : Nat) → (i : Nat) → (Nat → Dependency) → (Nat → Dependency)
  | 0, _, data => data
  | m + 1, i, data => insertionOuter a m (i + 1) (insertionInner a (i - a) data)

/-- `insertionSort_func(data, a, b)`. -/
def insertionSort_func (data : Nat → Dependency) (a b : Nat) : Nat → Dependency :=
  insertionOuter a (b - (a + 1)) (a + 1) data

/-- The loop of `siftDown_func`; `fuel` bounds `hi - root`. -/
def siftDownLoop (hi first : Nat) : (fuel : Nat) → (root : Nat) → (Nat → Dependency) →
    (Nat → Dependency)
  | 0, _, data => data
  | fuel + 1, root, data =>
    if 2 * root + 1 ≥ hi then data
    else
      let child :=
        if 2 * root + 2 < hi ∧ Less data (first + (2 * root + 1)) (first + (2 * root + 1) + 1)
        then 2 * root + 2 else 2 * root + 1
      if Less data (first + root) (first + child) then
        siftDownLoop hi first fuel child (Swap data (first + root) (first + child))
      else data

/-- `siftDown_func(data, lo, hi, first)`. -/
def siftDown_func (data : Nat → Dependency) (lo hi first : Nat) : Nat → Dependency :=
  siftDownLoop hi first hi lo data

/-- The first loop of `heapSort_func`, `for i := (hi - 1) / 2; i >= 0; i--`, with the
iterations `i = m - 1, ..., 0` left. -/
def heapBuild (hi first : Nat) : (m : Nat) → (Nat → Dependency) → (Nat → Dependency)
  | 0, data => data
  | m + 1, data => heapBuild hi first m (siftDown_func data m hi first)

/-- The second loop of `heapSort_func`, `for i := hi - 1; i >= 0; i--`, with the iterations
`i = m - 1, ..., 0` left. -/
def heapPop (first : Nat) : (m : Nat) → (Nat → Dependency) → (Nat → Dependency)
  | 0, data => data
  | m + 1, data => heapPop first m (siftDown_func (Swap data first (first + m)) 0 m first)

/-- `heapSort_func(data, a, b)`. -/
def heapSort_func (data : Nat → Dependency) (a b : Nat) : Nat → Dependency :=
  heapPop a (b - a) (heapBuild (b - a) a ((b - a - 1) / 2 + 1) data)

/-- The loop `for i <= j && data.Less(i, a) { i++ }` with `m = j + 1 - i`. -/
def scanLess (data : Nat → Dependency) (a : Nat) : (m : Nat) → (i : Nat) → Nat
  | 0, i => i
  | m + 1, i => if Less data i a then scanLess data a m (i + 1) else i

/-- The loop `for i <= j && !data.Less(j, a) { j-- }` with `m = j + 1 - i`. -/
def scanNotLess (data : Nat → Dependency) (a : Nat) : (m : Nat) → (j : Nat) → Nat
  | 0, j => j
  | m + 1, j => if Less data j a then j else scanNotLess data a m (j - 1)

/-- The `for` loop of `partition_func`; `fuel` bounds `j + 1 - i`.  The result is the slice and
the final `j`. -/
def partitionLoop (a : Nat) : (fuel : Nat) → (i j : Nat) → (Nat → Dependency) →
    (Nat → Dependency) × Nat
  | 0, _, j, data => (data, j)
  | fuel + 1, i, j, data =>
    let i1 := scanLess data a (j + 1 - i) i
    let j1 := scanNotLess data a (j + 1 - i1) j
    if i1 > j1 then (data, j1)
    else partitionLoop a fuel (i1 + 1) (j1 - 1) (Swap data i1 j1)

/-- `partition_func(data, a, b, pivot)`: the slice, `newpivot` and `alreadyPartitioned`. -/
def partition_func (data : Nat → Dependency) (a b pivot : Nat) :
    (Nat → Dependency) × Nat × Bool :=
  let data1 := Swap data a pivot
  let i := scanLess data1 a (b - 1 + 1 - (a + 1)) (a + 1)
  let j := scanNotLess data1 a (b - 1 + 1 - i) (b - 1)
  if i > j then (Swap data1 j a, j, true)
  else
    let r := partitionLoop a (j - 1 + 1 - (i + 1)) (i + 1) (j - 1) (Swap data1 i j)
    (Swap r.1 r.2 a, r.2, false)

/-- The loop `for i <= j && !data.Less(a, i) { i++ }` with `m = j + 1 - i`. -/
def scanNotGreater (data : Nat → Dependency) (a : Nat) : (m : Nat) → (i : Nat) → Nat
  | 0, i => i
  | m + 1, i => if Less data a i then i else scanNotGreater data a m (i + 1)

/-- The loop `for i <= j && data.Less(a, j) { j-- }` with `m = j + 1 - i`. -/
def scanGreater (data : Nat → Dependency) (a : Nat) : (m : Nat) → (j : Nat) → Nat
  | 0, j => j
  | m + 1, j => if Less data a j then scanGreater data a m (j - 1) else j

/-- The `for` loop of `partitionEqual_func`; `fuel` bounds `j + 1 - i`.  The result is the slice
and the final `i`. -/
def partitionEqualLoop (a : Nat) : (fuel : Nat) → (i j : Nat) → (Nat → Dependency) →
    (Nat → Dependency) × Nat
  | 0, i, _, data => (data, i)
  | fuel + 1, i, j, data =>
    let i1 := scanNotGreater data a (j + 1 - i) i
    let j1 := scanGreater data a (j + 1 - i1) j
    if i1 > j1 then (data, i1)
    else partitionEqualLoop a fuel (i1 + 1) (j1 - 1) (Swap data i1 j1)

/-- `partitionEqual_func(data, a, b, pivot)`: the slice and `newpivot`. -/
def partitionEqual_func (data : Nat → Dependency) (a b pivot : Nat) :
    (Nat → Dependency) × Nat :=
  partitionEqualLoop a (b - 1 + 1 - (a + 1)) (a + 1) (b - 1) (Swap data a pivot)

/-- The loop `for i < b && !data.Less(i, i-1) { i++ }` with `m = b - i`. -/
def scanOrdered (data : Nat → Dependency) : (m : Nat) → (i : Nat) → Nat
  | 0, i => i
  | m + 1, i => if Less data i (i - 1) then i else scanOrdered data m (i + 1)

/-- The loop `for j := i - 1; j >= 1; j--` of `partialInsertionSort_func`, at `j`. -/
def shiftSmaller : (j : Nat) → (Nat → Dependency) → (Nat → Dependency)
  | 0, data => data
  | j + 1, data =>
    if Less data (j + 1) j then shiftSmaller j (Swap data (j + 1) j) else data

/-- The loop `for j := i + 1; j < b; j++` of `partialInsertionSort_func`, with `m = b - j`. -/
def shiftGreater : (m : Nat) → (j : Nat) → (Nat → Dependency) → (Nat → Dependency)
  | 0, _, data => data
  | m + 1, j, data =>
    if Less data j (j - 1) then shiftGreater m (j + 1) (Swap data j (j - 1)) else data

/-- The loop `for j := 0; j < maxSteps; j++` of `partialInsertionSort_func`, with `steps`
iterations left. -/
def partialInsertionLoop (a b : Nat) : (steps : Nat) → (i : Nat) → (Nat → Dependency) →
    (Nat → Dependency) × Bool
  | 0, _, data => (data, false)
  | steps + 1, i, data =>
    let i1 := scanOrdered data (b - i) i
    if i1 = b then (data, true)
    else if b - a < 50 then (data, false)
    else
      let data1 := Swap data i1 (i1 - 1)
      let data2 := if i1 - a ≥ 2 then shiftSmaller (i1 - 1) data1 else data1
      let data3 := if b - i1 ≥ 2 then shiftGreater (b - (i1 + 1)) (i1 + 1) data2 else data2
      partialInsertionLoop a b steps i1 data3

/-- `partialInsertionSort_func(data, a, b)`: the slice, and whether it is sorted at the end. -/
def partialInsertionSort_func (data : Nat → Dependency) (a b : Nat) :
    (Nat → Dependency) × Bool :=
  partialInsertionLoop a b 5 (a + 1) data

/-- `bits.Len(uint(n))`. -/
def bitsLen (n : Nat) : Nat := if n = 0 then 0 else Nat.log2 n + 1

/-- `(*xorshift).Next` on a 64-bit state.  The value only steers which elements
`breakPatterns_func` swaps. -/
def xorshiftNext (r : Nat) : Nat :=
  let r1 := r ^^^ ((r <<< 13) % 2 ^ 64)
  let r2 := r1 ^^^ (r1 >>> 17)
  r2 ^^^ ((r2 <<< 5) % 2 ^ 64)

/-- The index `other` of `breakPatterns_func` drawn from the state `random`. -/
def breakIndex (random length : Nat) : Nat :=
  let other := random &&& (2 ^ bitsLen length - 1)
  if other ≥ length then other - length else other

/-- `breakPatterns_func(data, a, b)`. -/
def breakPatterns_func (data : Nat → Dependency) (a b : Nat) : Nat → Dependency :=
  if b - a ≥ 8 then
    let idx := a + (b - a) / 4 * 2 - 1
    let r1 := xorshiftNext (b - a)
    let r2 := xorshiftNext r1
    let r3 := xorshiftNext r2
    let data1 := Swap data (idx - 1 + 0) (a + breakIndex r1 (b - a))
    let data2 := Swap data1 (idx - 1 + 1) (a + breakIndex r2 (b - a))
    Swap data2 (idx - 1 + 2) (a + breakIndex r3 (b - a))
  else data

/-- The type `sortedHint`. -/
inductive sortedHint where
  | unknownHint | increasingHint | decreasingHint
deriving DecidableEq, Repr, Inhabited

/-- `order2_func(data, a, b, &swaps)`: the two indices and the new value of `swaps`. -/
def order2_func (data : Nat → Dependency) (a b swaps : Nat) : Nat × Nat × Nat :=
  if Less data b a then (b, a, swaps + 1) else (a, b, swaps)

/-- `median_func(data, a, b, c, &swaps)`: the index and the new value of `swaps`. -/
def median_func (data : Nat → Dependency) (a b c swaps : Nat) : Nat × Nat :=
  let r1 := order2_func data a b swaps
  let r2 := order2_func data r1.2.1 c r1.2.2
  let r3 := order2_func data r1.1 r2.1 r2.2.2
  (r3.2.1, r3.2.2)

/-- `medianAdjacent_func(data, a, &swaps)`. -/
def medianAdjacent_func (data : Nat → Dependency) (a swaps : Nat) : Nat × Nat :=
  median_func data (a - 1) a (a + 1) swaps

/-- `choosePivot_func(data, a, b)`. -/
def choosePivot_func (data : Nat → Dependency) (a b : Nat) : Nat × sortedHint :=
  let l := b - a
  let i := a + l / 4 * 1
  let j := a + l / 4 * 2
  let k := a + l / 4 * 3
  let r :=
    if l ≥ 8 then
      if l ≥ 50 then
        let ri := medianAdjacent_func data i 0
        let rj := medianAdjacent_func data j ri.2
        let rk := medianAdjacent_func data k rj.2
        median_func data ri.1 rj.1 rk.1 rk.2
      else median_func data i j k 0
    else (j, 0)
  if r.2 = 0 then (r.1, .increasingHint)
  else if r.2 = 4 * 3 then (r.1, .decreasingHint)
  else (r.1, .unknownHint)

/-- The loop of `reverseRange_func`, `for i < j`; `fuel` bounds `j - i`. -/
def reverseLoop : (fuel : Nat) → (i j : Nat) → (Nat → Dependency) → (Nat → Dependency)
  | 0, _, _, data => data
  | fuel + 1, i, j, data =>
    if i < j then reverseLoop fuel (i + 1) (j - 1) (Swap data i j) else data

/-- `reverseRange_func(data, a, b)`. -/
def reverseRange_func (data : Nat → Dependency) (a b : Nat) : Nat → Dependency :=
  reverseLoop (b - a) a (b - 1) data

/-- `pdqsort_func(data, a, b, limit)`.  The loop `for` of the Go function and its recursive call
are both calls of this function; `wasBalanced` and `wasPartitioned` are the two loop variables
(both `true` on entry).  `fuel` bounds `b - a`, which shrinks at every call, so without fuel
the range is empty and the routine is in its first branch. -/
def pdqsort_func : (fuel : Nat) → (Nat → Dependency) → (a b limit : Nat) →
    (wasBalanced wasPartitioned : Bool) → (Nat → Dependency)
  | 0, data, a, b, _, _, _ => insertionSort_func data a b
  | fuel + 1, data, a, b, limit, wasBalanced, wasPartitioned =>
    if b - a ≤ 12 then insertionSort_func data a b
    else if limit = 0 then heapSort_func data a b
    else
      let data1 := if wasBalanced then data else breakPatterns_func data a b
      let limit1 := if wasBalanced then limit else limit - 1
      let c := choosePivot_func data1 a b
      let data2 := if c.2 = .decreasingHint then reverseRange_func data1 a b else data1
      let pivot := if c.2 = .decreasingHint then (b - 1) - (c.1 - a) else c.1
      let hint := if c.2 = .decreasingHint then sortedHint.increasingHint else c.2
      let tryPartial := wasBalanced && wasPartitioned && hint = .increasingHint
      let p := partialInsertionSort_func data2 a b
      if tryPartial ∧ p.2 = true then p.1
      else
        let data3 := if tryPartial then p.1 else data2
        if a > 0 ∧ Less data3 (a - 1) pivot = false then
          let e := partitionEqual_func data3 a b pivot
          pdqsort_func fuel e.1 e.2 b limit1 wasBalanced wasPartitioned
        else
          let q := partition_func data3 a b pivot
          let mid := q.2.1
          if mid - a < b - mid then
            pdqsort_func fuel (pdqsort_func fuel q.1 a mid limit1 true true) (mid + 1) b limit1
              (decide (mid - a ≥ (b - a) / 8)) q.2.2
          else
            pdqsort_func fuel (pdqsort_func fuel q.1 (mid + 1) b limit1 true true) a mid limit1
              (decide (b - mid ≥ (b - a) / 8)) q.2.2

/-- `sort.Slice(s, less)` with the closure of line 233. -/
def sortSlice (s : List Dependency) : List Dependency :=
  (List.range s.length).map
    (pdqsort_func s.length (fun i => s.getD i default) 0 s.length (bitsLen s.length) true true)

/-- What the documentation of `sort.Slice` promises of the call of line 233: the slice is
rearranged (`perm`) so that no element is `less` than an element before it (`sorted`); the
sort is not guaranteed to be stable.  The gather loop is studied for every routine of this
kind; `sortSlice` above is one of them. -/
structure SortSlice where
  run : List Dependency → List Dependency
  perm : ∀ s, (run s).Perm s
  sorted : ∀ s, (run s).Pairwise (fun a b => less b a = false)

/-- The call `json.Marshal(v)` of line 237, as the JSON object it writes: the exported fields
in declaration order, each under its Go field name (the struct carries no tags). -/
def marshal (v : Dependency) : JSON :=
  .obj [("Name", .str v.Name), ("Version", .str v.Version),
    ("Description", .str v.Description), ("Homepage", .str v.Homepage),
    ("AbsPath", .str v.AbsPath), ("License", .str v.License)]

/-- Lines 234-243: the elements of the array written between `[` and `]`, in order. -/
def report (s : List Dependency) : List JSON := s.map marshal

/-- Lines 204-243 of `main`: gather, sort, serialise.  `none` when the gather loop blocks. -/
def mainReport (sortSlice : SortSlice) (deps dependencyWhitelist : List String)
    (arrivals : List Dependency) : Option (List JSON) :=
  match chListener (depsCount deps dependencyWhitelist) arrivals 0 [] with
  | none => none
  | some s => some (report (sortSlice.run s))

/-- The keys of a JSON object, in order; the empty list for any other value. -/
def JSON.keys : JSON → List String
  | .obj kvs => kvs.map Prod.fst
  | _ => []

/-- The string held under key `k` of a JSON object, if any. -/
def JSON.field (v : JSON) (k : String) : Option String :=
  match v with
  | .obj kvs =>
    match mapIndex kvs k with
    | .str s => some s
    | _ => none
  | _ => none

/-! ## The ordering of the specification -/

/-- The order on records that `less` is the strict part of. -/
def nameLe (a b : Dependency) : Prop := a.Name.data ≤ b.Name.data

instance nameLe_decidable : DecidableRel nameLe :=
  fun a b => inferInstanceAs (Decidable (a.Name.data ≤ b.Name.data))

instance nameLe_total : IsTotal Dependency nameLe :=
  ⟨fun a b => le_total a.Name.data b.Name.data⟩

instance nameLe_trans : IsTrans Dependency nameLe :=
  ⟨fun _ _ _ hab hbc => le_trans hab hbc⟩

/-- The ordering the specification asks for, in its words: ascending by name, records of equal
name in the order in which they were gathered.  Insertion from the right puts a record in
front of the first record whose name is not smaller, so in front of its later equals. -/
def stableSortByName (s : List Dependency) : List Dependency :=
  s.insertionSort nameLe

/-- A routine within the contract of `sort.Slice`: the stable sort. -/
def stableSortSlice : SortSlice where
  run := stableSortByName
  perm := fun s => List.perm_insertionSort nameLe s
  sorted := fun s =>
    (List.sorted_insertionSort nameLe s).imp (fun {a b} (h : nameLe a b) => by
      unfold less
      exact decide_eq_false (not_lt.2 h))

/-! ## Predicates on slices -/

/-- The sort key of a record: what `less` compares. -/
def key (d : Dependency) : List Char := d.Name.data

/-- The elements at the indices `a ≤ i < b` are in ascending order of their keys. -/
def SortedOn (data : Nat → Dependency) (a b : Nat) : Prop :=
  ∀ i j, a ≤ i → i < j → j < b → key (data i) ≤ key (data j)

/-- The second slice comes from the first by swaps of elements at indices `a ≤ i < b`. -/
inductive Reach (a b : Nat) : (Nat → Dependency) → (Nat → Dependency) → Prop where
  | refl (d : Nat → Dependency) : Reach a b d d
  | swap {d e : Nat → Dependency} (i j : Nat) (hi : a ≤ i) (hib : i < b) (hj : a ≤ j)
      (hjb : j < b) (h : Reach a b d e) : Reach a b d (Swap e i j)

/-- The invariant of the loop of `partition_func` at the indices `i`, `j`: the pivot is at `a`,
smaller keys below `i`, keys that are not smaller above `j`. -/
def PartInv (a b : Nat) (d : Nat → Dependency) (i j : Nat) : Prop :=
  a < i ∧ i ≤ j + 1 ∧ j < b ∧
  (∀ k, a < k → k < i → key (d k) < key (d a)) ∧
  (∀ k, j < k → k < b → key (d a) ≤ key (d k))

/-- What the loop of `partition_func` leaves, started on `d`: the slice `e` and the index `mid`. -/
def PartPost (a b : Nat) (d e : Nat → Dependency) (mid : Nat) : Prop :=
  Reach (a + 1) b d e ∧ a ≤ mid ∧ mid < b ∧
  (∀ k, a < k → k ≤ mid → key (e k) < key (d a)) ∧
  (∀ k, mid < k → k < b → key (d a) ≤ key (e k))

/-- The invariant of the loop of `partitionEqual_func` at the indices `i`, `j`. -/
def EqInv (a b : Nat) (d : Nat → Dependency) (i j : Nat) : Prop :=
  a < i ∧ i ≤ j + 1 ∧ j < b ∧
  (∀ k, a < k → k < i → key (d k) ≤ key (d a)) ∧
  (∀ k, j < k → k < b → key (d a) < key (d k))

/-- What the loop of `partitionEqual_func` leaves, started on `d`. -/
def EqPost (a b : Nat) (d e : Nat → Dependency) (mid : Nat) : Prop :=
  Reach (a + 1) b d e ∧ a < mid ∧ mid ≤ b ∧
  (∀ k, a < k → k < mid → key (e k) ≤ key (d a)) ∧
  (∀ k, mid ≤ k → k < b → key (d a) < key (e k))

/-- The element in front of the range `a ≤ k < b`, if there is one, is not greater than any
element of the range. -/
def LowerOk (a b : Nat) (d : Nat → Dependency) : Prop :=
  ∀ k, a ≤ k → k < b → 0 < a → key (d (a - 1)) ≤ key (d k)

/-- In the heap laid out from index `first` with `hi` nodes, node `k` is not smaller than its
children. -/
def HeapAt (first hi : Nat) (d : Nat → Dependency) (k : Nat) : Prop :=
  (2 * k + 1 < hi → key (d (first + (2 * k + 1))) ≤ key (d (first + k))) ∧
  (2 * k + 2 < hi → key (d (first + (2 * k + 2))) ≤ key (d (first + k)))

/-- The heap property at every node from `lo` on. -/
def HeapFrom (first hi lo : Nat) (d : Nat → Dependency) : Prop :=
  ∀ k, lo ≤ k → HeapAt first hi d k

/-- The invariant of the loop of `siftDown_func`: the heap property holds at every node from
`lo` on except `root`, and the parent of `root` is not smaller than the children of `root`. -/
def SiftInv (first hi lo root : Nat) (d : Nat → Dependency) : Prop :=
  (∀ k, lo ≤ k → k ≠ root → HeapAt first hi d k) ∧
  (∀ k, lo ≤ k → k ≠ root → (root = 2 * k + 1 ∨ root = 2 * k + 2) →
    ∀ g, (g = 2 * root + 1 ∨ g = 2 * root + 2) → g < hi →
      key (d (first + g)) ≤ key (d (first + k)))

/-- The second slice comes from the first by swaps of two neighbours at indices `a ≤ j`,
`j + 1 < b` whose keys differ, the smaller key moving to the front. -/
inductive StableReach (a b : Nat) : (Nat → Dependency) → (Nat → Dependency) → Prop where
  | refl (d : Nat → Dependency) : StableReach a b d d
  | swap {d e : Nat → Dependency} (j : Nat) (hj : a ≤ j) (hjb : j + 1 < b)
      (hlt : key (e (j + 1)) < key (e j)) (h : StableReach a b d e) :
      StableReach a b d (Swap e (j + 1) j)

/-- The records of the given name among the first `n` elements of a slice, in order. -/
def named (name : String) (d : Nat → Dependency) (n : Nat) : List Dependency :=
  ((List.range n).map d).filter (fun x => decide (x.Name = name))

/-! ## Concrete inputs used below -/

/-- The manifest `c` of the scenario: its license is an array of one object. -/
def manifestC : List (String × JSON) :=
  [("name", .str "c"), ("version", .str "1.0.0"), ("description", .str "third"),
   ("homepage", .str "https://c.example"), ("license", .arr [.obj [("type", .str "ISC")]])]

/-- A manifest with a `license` member and a `License` member after it. -/
def manifestTwoLicenses : List (String × JSON) :=
  [("name", .str "a"), ("version", .str "1.0.0"), ("description", .str "first"),
   ("homepage", .str "https://a.example"), ("license", .str "MIT"), ("License", .str "GPL")]

/-- A manifest whose license is `null`. -/
def manifestNullLicense : List (String × JSON) :=
  [("name", .str "a"), ("version", .str "1.0.0"), ("description", .str "first"),
   ("homepage", .str "https://a.example"), ("license", .null)]

/-- A manifest whose license is an array of strings. -/
def manifestArrayOfStrings : List (String × JSON) :=
  [("name", .str "a"), ("version", .str "1.0.0"), ("description", .str "first"),
   ("homepage", .str "https://a.example"), ("license", .arr [.str "MIT", .str "X11"])]

/-- A manifest whose license is a number. -/
def manifestNumberLicense : List (String × JSON) :=
  [("name", .str "a"), ("version", .str "1.0.0"), ("description", .str "first"),
   ("homepage", .str "https://a.example"), ("license", .num 7)]

/-- A file system in which every path holds the same document. -/
def constFs (kvs : List (String × JSON)) : String → FileData :=
  fun _ => .bytes (.value (.obj kvs))

/-- The record of `manifestArrayOfStrings` read at `nm/a/package.json`. -/
def recordA1 : Dependency :=
  ⟨"a", "1.0.0", "first", "https://a.example", "nm/a/package.json", "MIT"⟩

/-- The record of `manifestArrayOfStrings` read at `nm/x/node_modules/a/package.json`. -/
def recordA2 : Dependency :=
  ⟨"a", "1.0.0", "first", "https://a.example", "nm/x/node_modules/a/package.json", "MIT"⟩

/-- A gathered record of the given name and path. -/
def gatheredRecord (name path : String) : Dependency :=
  ⟨name, "1.0.0", "", "", path, "MIT"⟩

/-- Fourteen gathered records: six named `c`, one named `b`, seven named `a`. -/
def gathered14 : List Dependency :=
  [gatheredRecord "c" "nm/p0/node_modules/c/package.json",
   gatheredRecord "c" "nm/p1/node_modules/c/package.json",
   gatheredRecord "c" "nm/p2/node_modules/c/package.json",
   gatheredRecord "c" "nm/p3/node_modules/c/package.json",
   gatheredRecord "c" "nm/p4/node_modules/c/package.json",
   gatheredRecord "c" "nm/p5/node_modules/c/package.json",
   gatheredRecord "b" "nm/b/package.json",
   gatheredRecord "a" "nm/q0/node_modules/a/package.json",
   gatheredRecord "a" "nm/q1/node_modules/a/package.json",
   gatheredRecord "a" "nm/q2/node_modules/a/package.json",
   gatheredRecord "a" "nm/q3/node_modules/a/package.json",
   gatheredRecord "a" "nm/q4/node_modules/a/package.json",
   gatheredRecord "a" "nm/q5/node_modules/a/package.json",
   gatheredRecord "a" "nm/q6/node_modules/a/package.json"]

/-- A tree with one manifest. -/
def treeOne : Node := .dir "nm" [.dir "a" [.file "package.json"]]

/-- A tree with one manifest, visited first, and a directory that cannot be read. -/
def treeUnreadable : Node :=
  .dir "nm" [.dir "a" [.file "README.md", .file "package.json"], .unreadableDir "b"]

/-! ## Lemmas on the two decoders -/

theorem mapIndex_append_singleton (m : List (String × JSON)) (x : String × JSON) (k : String) :
    mapIndex (m ++ [x]) k = if x.1 = k then x.2 else mapIndex m k := by
  simp [mapIndex, List.foldl_append]

theorem mapIndex_nil (k : String) : mapIndex [] k = .null := rfl

theorem mapIndex_eq_null_of_absent (m : List (String × JSON)) (k : String)
    (h : ∀ kv ∈ m, kv.1 ≠ k) : mapIndex m k = .null := by
  induction m using List.reverseRecOn with
  | nil => rfl
  | append_singleton l x ih =>
    rw [mapIndex_append_singleton]
    have hx : x.1 ≠ k := h x (by simp)
    rw [if_neg hx]
    exact ih (fun kv hkv => h kv (by simp [hkv]))

theorem foldl_decodeMember_append_singleton (l : List (String × JSON)) (x : String × JSON)
    (acc : Dependency × Bool) :
    (l ++ [x]).foldl decodeMember acc = decodeMember (l.foldl decodeMember acc) x := by
  simp [List.foldl_append]

theorem decodeMember_flag_sticky (acc : Dependency × Bool) (x : String × JSON)
    (h : acc.2 = true) : (decodeMember acc x).2 = true := by
  unfold decodeMember
  cases findField x.1 <;> simp [h]

theorem findField_license : findField "license" = some .License := by decide

theorem decodeField_flag_of_container (d : Dependency) (f : Field) (v : JSON)
    (hs : ∀ s, v ≠ .str s) (hn : v ≠ .null) : (decodeField d f v).2 = true := by
  cases v <;> simp_all [decodeField]

/-- A `license` member that is neither a string nor `null` makes the typed decode fail. -/
theorem unmarshal_flag_of_license (kvs : List (String × JSON)) (v : JSON)
    (acc : Dependency × Bool) (hv : mapIndex kvs "license" = v)
    (hs : ∀ s, v ≠ .str s) (hn : v ≠ .null) :
    (kvs.foldl decodeMember acc).2 = true := by
  induction kvs using List.reverseRecOn with
  | nil => exact absurd hv.symm hn
  | append_singleton l x ih =>
    rw [foldl_decodeMember_append_singleton]
    rw [mapIndex_append_singleton] at hv
    by_cases hx : x.1 = "license"
    · rw [if_pos hx] at hv
      unfold decodeMember
      rw [hx, findField_license]
      simp only [Bool.or_eq_true]
      right
      rw [hv]
      exact decodeField_flag_of_container _ _ _ hs hn
    · rw [if_neg hx] at hv
      exact decodeMember_flag_sticky _ _ (ih hv)

theorem decode_of_license (kvs : List (String × JSON)) (v : JSON)
    (hv : mapIndex kvs "license" = v) (hs : ∀ s, v ≠ .str s) (hn : v ≠ .null) :
    decode (.value (.obj kvs)) =
      fallback (.value (.obj kvs)) (unmarshalDependency (.value (.obj kvs)) {}).1 := by
  unfold decode
  have h : (unmarshalDependency (.value (.obj kvs)) {}).2 = true :=
    unmarshal_flag_of_license kvs v _ hv hs hn
  simp [h]

theorem fallback_license_error (kvs : List (String × JSON)) (d : Dependency) (e : Failure)
    (h : licenseString (mapIndex kvs "license") = .error e) :
    ∃ e0, fallback (.value (.obj kvs)) d = .error e0 := by
  unfold fallback
  simp only [unmarshalMap, h]
  cases assertString (mapIndex kvs "name") with
  | error e1 => exact ⟨e1, rfl⟩
  | ok n =>
    cases assertString (mapIndex kvs "version") with
    | error e1 => exact ⟨e1, rfl⟩
    | ok v =>
      cases assertString (mapIndex kvs "description") with
      | error e1 => exact ⟨e1, rfl⟩
      | ok ds =>
        cases assertString (mapIndex kvs "homepage") with
        | error e1 => exact ⟨e1, rfl⟩
        | ok hp => exact ⟨e, rfl⟩

theorem fallback_of_strings (kvs : List (String × JSON)) (d : Dependency)
    (n v ds hp : String)
    (hname : mapIndex kvs "name" = .str n) (hversion : mapIndex kvs "version" = .str v)
    (hdesc : mapIndex kvs "description" = .str ds)
    (hhome : mapIndex kvs "homepage" = .str hp) :
    fallback (.value (.obj kvs)) d =
      match licenseString (mapIndex kvs "license") with
      | .error e => .error e
      | .ok l => .ok { d with Name := n, Version := v, Description := ds, Homepage := hp,
                              License := l } := by
  unfold fallback
  simp only [unmarshalMap, hname, hversion, hdesc, hhome, assertString]
  cases licenseString (mapIndex kvs "license") <;> rfl

theorem set_license_of_ne (d : Dependency) (f : Field) (s : String) (hf : f ≠ .License) :
    (d.set f s).License = d.License := by
  cases f <;> simp_all [Dependency.set]

theorem decodeField_license_of_ne (d : Dependency) (f : Field) (v : JSON)
    (hf : f ≠ .License) : (decodeField d f v).1.License = d.License := by
  cases v <;> simp [decodeField, set_license_of_ne _ _ _ hf]

/-- When the typed decode succeeds and `license` is the only key that reaches the field
`License`, the field ends up holding the string last stored under `license`. -/
theorem unmarshal_license_of_success (kvs : List (String × JSON)) (s : String)
    (acc : Dependency × Bool)
    (hkeys : ∀ kv ∈ kvs, findField kv.1 = some .License → kv.1 = "license")
    (hv : mapIndex kvs "license" = .str s)
    (hflag : (kvs.foldl decodeMember acc).2 = false) :
    (kvs.foldl decodeMember acc).1.License = s := by
  induction kvs using List.reverseRecOn with
  | nil => simp [mapIndex] at hv
  | append_singleton l x ih =>
    rw [foldl_decodeMember_append_singleton] at hflag ⊢
    rw [mapIndex_append_singleton] at hv
    have hkeys0 : ∀ kv ∈ l, findField kv.1 = some .License → kv.1 = "license" :=
      fun kv hkv => hkeys kv (by simp [hkv])
    have hx := hkeys x (by simp)
    unfold decodeMember at hflag ⊢
    cases hf : findField x.1 with
    | none =>
      rw [hf] at hflag
      simp only at hflag ⊢
      have hne : x.1 ≠ "license" := by
        intro h
        rw [h, findField_license] at hf
        cases hf
      rw [if_neg hne] at hv
      exact ih hkeys0 hv hflag
    | some f =>
      rw [hf] at hflag
      simp only [Bool.or_eq_false_iff] at hflag ⊢
      by_cases hl : x.1 = "license"
      · rw [if_pos hl] at hv
        rw [hl, findField_license] at hf
        cases hf
        rw [hv]
        rfl
      · rw [if_neg hl] at hv
        have hfl : f ≠ .License := by
          intro h
          rw [h] at hf
          exact hl (hx hf)
        rw [decodeField_license_of_ne _ _ _ hfl]
        exact ih hkeys0 hv hflag.1

theorem any_beq_iff_mem (whiteList : List String) (name : String) :
    whiteList.any (fun v => v == name) = true ↔ name ∈ whiteList := by
  rw [List.any_eq_true]
  constructor
  · rintro ⟨x, hx, hxe⟩
    rw [beq_iff_eq] at hxe
    exact hxe ▸ hx
  · intro h
    exact ⟨name, h, by simp⟩

theorem filterSend_eq (path : String) (whiteList : List String) (d : Dependency) :
    filterSend path whiteList d =
      if whiteList = [] ∨ d.Name ∈ whiteList then some { d with AbsPath := path } else none := by
  unfold filterSend
  have hany := any_beq_iff_mem whiteList d.Name
  by_cases h : whiteList = [] ∨ d.Name ∈ whiteList
  · rw [if_pos h, if_neg]
    rintro ⟨hlen, hmem⟩
    rcases h with h | h
    · rw [h] at hlen
      simp at hlen
    · exact hmem (hany.2 h)
  · rw [if_neg h, if_pos]
    refine ⟨?_, fun hm => h (Or.inr (hany.1 hm))⟩
    cases whiteList with
    | nil => exact absurd (Or.inl rfl) h
    | cons a l => simp

theorem getJson_of_decode (fs : String → FileData) (path : String) (whiteList : List String)
    (b : Content) (d : Dependency) (hfile : fs path = .bytes b) (hdec : decode b = .ok d) :
    getJson fs path whiteList =
      .ok (if whiteList = [] ∨ d.Name ∈ whiteList then some { d with AbsPath := path }
           else none) := by
  unfold getJson
  rw [hfile]
  simp only
  rw [hdec]
  simp only
  rw [filterSend_eq]

theorem getJson_of_decode_error (fs : String → FileData) (path : String)
    (whiteList : List String) (b : Content) (e : Failure) (hfile : fs path = .bytes b)
    (hdec : decode b = .error e) : getJson fs path whiteList = .error e := by
  unfold getJson
  rw [hfile]
  simp only
  rw [hdec]

/-- A record that was sent is the decoded record with `AbsPath` set, and it passed the filter. -/
theorem getJson_sent_inv (fs : String → FileData) (path : String) (whiteList : List String)
    (r : Dependency) (h : getJson fs path whiteList = .ok (some r)) :
    ∃ b d, fs path = .bytes b ∧ decode b = .ok d ∧ r = { d with AbsPath := path } ∧
      (whiteList = [] ∨ d.Name ∈ whiteList) := by
  cases hfile : fs path with
  | unreadable =>
    unfold getJson at h
    rw [hfile] at h
    cases h
  | bytes b =>
    cases hdec : decode b with
    | error e =>
      rw [getJson_of_decode_error fs path whiteList b e hfile hdec] at h
      cases h
    | ok d =>
      rw [getJson_of_decode fs path whiteList b d hfile hdec] at h
      refine ⟨b, d, rfl, hdec, ?_⟩
      by_cases hc : whiteList = [] ∨ d.Name ∈ whiteList
      · rw [if_pos hc] at h
        injection h with h
        injection h with h
        exact ⟨h.symm, hc⟩
      · rw [if_neg hc] at h
        injection h with h
        cases h

theorem getJson_sent_name_of_whitelist (fs : String → FileData) (path : String)
    (whiteList : List String) (r : Dependency) (hne : whiteList ≠ [])
    (hsent : getJson fs path whiteList = .ok (some r)) : r.Name ∈ whiteList := by
  obtain ⟨b, d, _, _, hr, hc⟩ := getJson_sent_inv fs path whiteList r hsent
  rcases hc with hc | hc
  · exact absurd hc hne
  · rw [hr]
    exact hc

/-! ## `getJson`: the license -/

/-- C1, counterexample: the manifest `c` of the scenario (license `[{"type":"ISC"}]`, the other
four members strings) satisfies the premises of the claim, and `getJson` panics on the
assertion `arrayLicense[0].(string)` of line 69 instead of sending a record. -/
theorem c1_array_of_objects_panics :
    mapIndex manifestC "name" = .str "c" ∧ mapIndex manifestC "version" = .str "1.0.0" ∧
    mapIndex manifestC "description" = .str "third" ∧
    mapIndex manifestC "homepage" = .str "https://c.example" ∧
    mapIndex manifestC "license" = .arr [.obj [("type", .str "ISC")]] ∧
    mapIndex [("type", JSON.str "ISC")] "type" = .str "ISC" ∧
    getJson (constFs manifestC) "nm/c/package.json" [] = .error .typeAssertion :=
  ⟨rfl, rfl, rfl, rfl, rfl, rfl, rfl⟩

/-- C1, amended: for every manifest whose name, version, description and homepage are strings
and whose license is a non-empty array whose first element is an object, `getJson` sends no
record, whatever the white list: it panics on the string assertion of line 69. -/
theorem getJson_license_array_of_object_aborts (fs : String → FileData) (path : String)
    (whiteList : List String) (kvs : List (String × JSON)) (n v ds hp : String)
    (o : List (String × JSON)) (rest : List JSON)
    (hfile : fs path = .bytes (.value (.obj kvs)))
    (hname : mapIndex kvs "name" = .str n) (hversion : mapIndex kvs "version" = .str v)
    (hdesc : mapIndex kvs "description" = .str ds)
    (hhome : mapIndex kvs "homepage" = .str hp)
    (hlic : mapIndex kvs "license" = .arr (.obj o :: rest)) :
    getJson fs path whiteList = .error .typeAssertion := by
  unfold getJson
  rw [hfile]
  simp only
  rw [decode_of_license kvs _ hlic (by simp) (by simp),
    fallback_of_strings kvs _ n v ds hp hname hversion hdesc hhome, hlic]
  rfl

/-- C1, amended, at the manifest `c` of the scenario and the white list `["c"]`. -/
theorem getJson_license_array_of_object_aborts_witness :
    getJson (constFs manifestC) "nm/c/package.json" ["c"] = .error .typeAssertion :=
  getJson_license_array_of_object_aborts (constFs manifestC) "nm/c/package.json" ["c"]
    manifestC "c" "1.0.0" "third" "https://c.example" [("type", .str "ISC")] []
    rfl rfl rfl rfl rfl rfl

/-- C2, counterexample: a manifest whose `license` is the string `"MIT"` and that also has a
member `License` (matched to the same field, case-insensitively, by the typed decode of line
45) yields a record whose License is `"GPL"`, not the license value `"MIT"`. -/
theorem c2_case_variant_key_wins :
    mapIndex manifestTwoLicenses "name" = .str "a" ∧
    mapIndex manifestTwoLicenses "version" = .str "1.0.0" ∧
    mapIndex manifestTwoLicenses "description" = .str "first" ∧
    mapIndex manifestTwoLicenses "homepage" = .str "https://a.example" ∧
    mapIndex manifestTwoLicenses "license" = .str "MIT" ∧
    getJson (constFs manifestTwoLicenses) "nm/a/package.json" [] =
      .ok (some ⟨"a", "1.0.0", "first", "https://a.example", "nm/a/package.json", "GPL"⟩) :=
  ⟨rfl, rfl, rfl, rfl, rfl, rfl⟩

/-- C2, amended: for every manifest whose name, version, description and homepage are strings,
`getJson` decodes a record `d` whose License is the license value itself when that is a string
and `license` is the only key of the manifest that matches the field `License`
case-insensitively; the `type` of the license when that is an object with a string `type`; the
first element when that is an array starting with a string.  The record is sent, with
`AbsPath` set, when the white list is empty or holds its Name, and dropped otherwise. -/
theorem getJson_license_resolved (fs : String → FileData) (path : String)
    (whiteList : List String) (kvs : List (String × JSON)) (n v ds hp L : String)
    (hfile : fs path = .bytes (.value (.obj kvs)))
    (hname : mapIndex kvs "name" = .str n) (hversion : mapIndex kvs "version" = .str v)
    (hdesc : mapIndex kvs "description" = .str ds)
    (hhome : mapIndex kvs "homepage" = .str hp)
    (hshape :
      (mapIndex kvs "license" = .str L ∧
        ∀ kv ∈ kvs, findField kv.1 = some .License → kv.1 = "license") ∨
      (∃ o, mapIndex kvs "license" = .obj o ∧ mapIndex o "type" = .str L) ∨
      (∃ rest, mapIndex kvs "license" = .arr (.str L :: rest))) :
    ∃ d : Dependency, d.License = L ∧
      getJson fs path whiteList =
        .ok (if whiteList = [] ∨ d.Name ∈ whiteList then some { d with AbsPath := path }
             else none) := by
  have key : ∃ d : Dependency, d.License = L ∧ decode (.value (.obj kvs)) = .ok d := by
    rcases hshape with ⟨hl, hkeys⟩ | ⟨o, hl, ht⟩ | ⟨rest, hl⟩
    · cases hflag : (unmarshalDependency (.value (.obj kvs)) {}).2 with
      | false =>
        refine ⟨(unmarshalDependency (.value (.obj kvs)) {}).1, ?_, ?_⟩
        · exact unmarshal_license_of_success kvs L _ hkeys hl hflag
        · unfold decode
          simp [hflag]
      | true =>
        refine ⟨{ (unmarshalDependency (.value (.obj kvs)) {}).1 with
          Name := n, Version := v, Description := ds, Homepage := hp, License := L }, rfl, ?_⟩
        unfold decode
        simp only [hflag, if_true]
        rw [fallback_of_strings kvs _ n v ds hp hname hversion hdesc hhome, hl]
        rfl
    · refine ⟨{ (unmarshalDependency (.value (.obj kvs)) {}).1 with
        Name := n, Version := v, Description := ds, Homepage := hp, License := L }, rfl, ?_⟩
      rw [decode_of_license kvs _ hl (by simp) (by simp),
        fallback_of_strings kvs _ n v ds hp hname hversion hdesc hhome, hl]
      simp only [licenseString, ht, assertString]
    · refine ⟨{ (unmarshalDependency (.value (.obj kvs)) {}).1 with
        Name := n, Version := v, Description := ds, Homepage := hp, License := L }, rfl, ?_⟩
      rw [decode_of_license kvs _ hl (by simp) (by simp),
        fallback_of_strings kvs _ n v ds hp hname hversion hdesc hhome, hl]
      simp only [licenseString, assertString]
  obtain ⟨d, hL, hd⟩ := key
  exact ⟨d, hL, getJson_of_decode fs path whiteList _ d hfile hd⟩

/-- C2, amended, at a manifest whose license is the array `["MIT", "X11"]`. -/
theorem getJson_license_resolved_witness :
    ∃ d : Dependency, d.License = "MIT" ∧
      getJson (constFs manifestArrayOfStrings) "nm/a/package.json" ["a", "b"] =
        .ok (if ["a", "b"] = [] ∨ d.Name ∈ ["a", "b"] then
               some { d with AbsPath := "nm/a/package.json" }
             else none) :=
  getJson_license_resolved (constFs manifestArrayOfStrings) "nm/a/package.json" ["a", "b"]
    manifestArrayOfStrings "a" "1.0.0" "first" "https://a.example" "MIT"
    rfl rfl rfl rfl rfl (Or.inr (Or.inr ⟨[.str "X11"], rfl⟩))

/-! ## `getJson`: the white list -/

/-- C3: for a manifest that decodes to the record `d`, under a non-empty white list `getJson`
sends a record if and only if `d.Name` is an entry of the white list (and returns without
sending otherwise); whenever the white list is empty or holds the name, the record sent is `d`
with `AbsPath` set to the path. -/
theorem getJson_whitelist_membership (fs : String → FileData) (path : String)
    (whiteList : List String) (b : Content) (d : Dependency)
    (hfile : fs path = .bytes b) (hdec : decode b = .ok d) :
    (whiteList ≠ [] →
      ((∃ r, getJson fs path whiteList = .ok (some r)) ↔ d.Name ∈ whiteList)) ∧
    (whiteList ≠ [] → d.Name ∉ whiteList → getJson fs path whiteList = .ok none) ∧
    (whiteList = [] ∨ d.Name ∈ whiteList →
      getJson fs path whiteList = .ok (some { d with AbsPath := path })) := by
  have h := getJson_of_decode fs path whiteList b d hfile hdec
  refine ⟨fun hne => ⟨?_, ?_⟩, ?_, ?_⟩
  · rintro ⟨r, hr⟩
    by_cases hc : whiteList = [] ∨ d.Name ∈ whiteList
    · rcases hc with hc | hc
      · exact absurd hc hne
      · exact hc
    · rw [h, if_neg hc] at hr
      injection hr with hr
      cases hr
  · intro hm
    rw [h, if_pos (Or.inr hm)]
    exact ⟨_, rfl⟩
  · intro hne hm
    rw [h, if_neg]
    rintro (hc | hc)
    · exact hne hc
    · exact hm hc
  · intro hc
    rw [h, if_pos hc]

/-- C3 at the manifest with an array of strings as license and the white list `["b", "a"]`. -/
theorem getJson_whitelist_membership_witness :
    (["b", "a"] ≠ [] →
      ((∃ r, getJson (constFs manifestArrayOfStrings) "nm/a/package.json" ["b", "a"] =
          .ok (some r)) ↔
        (⟨"a", "1.0.0", "first", "https://a.example", "", "MIT"⟩ : Dependency).Name
          ∈ ["b", "a"])) ∧
    (["b", "a"] ≠ [] →
      (⟨"a", "1.0.0", "first", "https://a.example", "", "MIT"⟩ : Dependency).Name
        ∉ ["b", "a"] →
      getJson (constFs manifestArrayOfStrings) "nm/a/package.json" ["b", "a"] = .ok none) ∧
    (["b", "a"] = [] ∨
      (⟨"a", "1.0.0", "first", "https://a.example", "", "MIT"⟩ : Dependency).Name
        ∈ ["b", "a"] →
      getJson (constFs manifestArrayOfStrings) "nm/a/package.json" ["b", "a"] =
        .ok (some { (⟨"a", "1.0.0", "first", "https://a.example", "", "MIT"⟩ : Dependency)
                    with AbsPath := "nm/a/package.json" })) :=
  getJson_whitelist_membership (constFs manifestArrayOfStrings) "nm/a/package.json"
    ["b", "a"] (.value (.obj manifestArrayOfStrings))
    ⟨"a", "1.0.0", "first", "https://a.example", "", "MIT"⟩ rfl rfl

/-! ## `getJson`: failures -/

/-- C8, counterexample: a manifest whose license is `null` (the other four members strings)
passes the typed decode of line 45, so the fallback with its `default` branch is never entered
and `getJson` sends a record with an empty License. -/
theorem c8_null_license_is_sent :
    mapIndex manifestNullLicense "license" = .null ∧
    getJson (constFs manifestNullLicense) "nm/a/package.json" [] =
      .ok (some ⟨"a", "1.0.0", "first", "https://a.example", "nm/a/package.json", ""⟩) :=
  ⟨rfl, rfl⟩

/-- C8, amended: for every manifest whose license is an empty array, an object without a
`type` member, a number or a boolean, `getJson` panics and sends no record, whatever the
white list. -/
theorem getJson_aborts_on_license_shape (fs : String → FileData) (path : String)
    (whiteList : List String) (kvs : List (String × JSON))
    (hfile : fs path = .bytes (.value (.obj kvs)))
    (hshape :
      mapIndex kvs "license" = .arr [] ∨
      (∃ o, mapIndex kvs "license" = .obj o ∧ ∀ kv ∈ o, kv.1 ≠ "type") ∨
      (∃ n, mapIndex kvs "license" = .num n) ∨
      (∃ t, mapIndex kvs "license" = .bool t)) :
    ∃ e, getJson fs path whiteList = .error e := by
  have key : ∃ e, decode (.value (.obj kvs)) = .error e := by
    rcases hshape with hl | ⟨o, hl, ho⟩ | ⟨n, hl⟩ | ⟨t, hl⟩
    · rw [decode_of_license kvs _ hl (by simp) (by simp)]
      exact fallback_license_error kvs _ .indexOutOfRange (by rw [hl]; rfl)
    · rw [decode_of_license kvs _ hl (by simp) (by simp)]
      refine fallback_license_error kvs _ .typeAssertion ?_
      rw [hl]
      simp only [licenseString]
      rw [mapIndex_eq_null_of_absent o "type" ho]
      rfl
    · rw [decode_of_license kvs _ hl (by simp) (by simp)]
      exact fallback_license_error kvs _ .licenseKind (by rw [hl]; rfl)
    · rw [decode_of_license kvs _ hl (by simp) (by simp)]
      exact fallback_license_error kvs _ .licenseKind (by rw [hl]; rfl)
  obtain ⟨e, he⟩ := key
  exact ⟨e, getJson_of_decode_error fs path whiteList _ e hfile he⟩

/-- C8, amended, at a manifest whose license is the number 7. -/
theorem getJson_aborts_on_license_shape_witness :
    ∃ e, getJson (constFs manifestNumberLicense) "nm/a/package.json" ["a"] = .error e :=
  getJson_aborts_on_license_shape (constFs manifestNumberLicense) "nm/a/package.json" ["a"]
    manifestNumberLicense rfl (Or.inr (Or.inr (Or.inl ⟨7, rfl⟩)))

/-! ## `getJson`: the name of a record -/

/-- C9, counterexample: with an empty white list the manifest without any member and the
manifest `null` are both sent, and the record has an empty Name. -/
theorem c9_empty_name_is_sent :
    getJson (constFs []) "nm/a/package.json" [] =
      .ok (some ⟨"", "", "", "", "nm/a/package.json", ""⟩) ∧
    getJson (fun _ => .bytes (.value .null)) "nm/a/package.json" [] =
      .ok (some ⟨"", "", "", "", "nm/a/package.json", ""⟩) ∧
    (⟨"", "", "", "", "nm/a/package.json", ""⟩ : Dependency).Name = "" :=
  ⟨rfl, rfl, rfl⟩

/-- C9, amended: every record that `getJson` sends under a non-empty white list has a Name that
is an entry of the white list; so its Name is non-empty whenever no entry of the white list is
the empty string, for every manifest content. -/
theorem getJson_sent_name_nonempty (fs : String → FileData) (path : String)
    (whiteList : List String) (r : Dependency)
    (hne : whiteList ≠ []) (hentries : "" ∉ whiteList)
    (hsent : getJson fs path whiteList = .ok (some r)) :
    r.Name ∈ whiteList ∧ r.Name ≠ "" := by
  obtain ⟨b, d, _, _, hr, hc⟩ := getJson_sent_inv fs path whiteList r hsent
  have hm : r.Name ∈ whiteList := by
    rcases hc with hc | hc
    · exact absurd hc hne
    · rw [hr]
      exact hc
  exact ⟨hm, fun h => hentries (h ▸ hm)⟩

/-- C9, amended, at a manifest named `a` and the white list `["a"]`. -/
theorem getJson_sent_name_nonempty_witness :
    (⟨"a", "1.0.0", "first", "https://a.example", "nm/a/package.json", "MIT"⟩ :
        Dependency).Name ∈ ["a"] ∧
    (⟨"a", "1.0.0", "first", "https://a.example", "nm/a/package.json", "MIT"⟩ :
        Dependency).Name ≠ "" :=
  getJson_sent_name_nonempty (constFs manifestArrayOfStrings) "nm/a/package.json" ["a"]
    ⟨"a", "1.0.0", "first", "https://a.example", "nm/a/package.json", "MIT"⟩
    (by decide) (by decide) rfl

/-! ## The gather loop -/

theorem chListener_eq (n : Nat) (arrivals : List Dependency) :
    ∀ (processed : Nat) (s : List Dependency), processed < n →
      chListener n arrivals processed s =
        if n - processed ≤ arrivals.length then some (s ++ arrivals.take (n - processed))
        else none := by
  induction arrivals with
  | nil =>
    intro processed s hp
    have : ¬ n - processed ≤ 0 := by omega
    simp [chListener, this]
  | cons msg rest ih =>
    intro processed s hp
    unfold chListener
    by_cases hlast : processed + 1 = n
    · have h1 : n - processed = 1 := by omega
      simp [hlast, h1]
    · rw [if_neg hlast, ih (processed + 1) (s ++ [msg]) (by omega)]
      have h2 : n - processed = (n - (processed + 1)) + 1 := by omega
      rw [h2, List.take_succ_cons, List.length_cons]
      by_cases hle : n - (processed + 1) ≤ rest.length
      · rw [if_pos hle, if_pos (by omega)]
        simp
      · rw [if_neg hle, if_neg (by omega)]

theorem chListener_done (n : Nat) (arrivals s : List Dependency)
    (h : chListener n arrivals 0 [] = some s) :
    s = arrivals.take n ∧ s.length = n := by
  by_cases hn : 0 < n
  · rw [chListener_eq n arrivals 0 [] hn] at h
    by_cases hle : n - 0 ≤ arrivals.length
    · rw [if_pos hle] at h
      simp only [Nat.sub_zero, List.nil_append, Option.some.injEq] at h
      subst h
      exact ⟨rfl, List.length_take_of_le (by simpa using hle)⟩
    · rw [if_neg hle] at h
      cases h
  · exfalso
    have hz : n = 0 := by omega
    subst hz
    have hnone : ∀ (l : List Dependency) (p : Nat) (t : List Dependency),
        chListener 0 l p t = none := by
      intro l
      induction l with
      | nil => intro p t; rfl
      | cons m r ih =>
        intro p t
        unfold chListener
        rw [if_neg (by omega)]
        exact ih _ _
    rw [hnone] at h
    cases h

theorem mem_offers (fs : String → FileData) (deps whiteList : List String) (r : Dependency)
    (h : r ∈ offers fs deps whiteList) :
    ∃ v ∈ deps, getJson fs v whiteList = .ok (some r) := by
  unfold offers at h
  rw [List.mem_filterMap] at h
  obtain ⟨v, hv, hr⟩ := h
  refine ⟨v, hv, ?_⟩
  cases hg : getJson fs v whiteList with
  | error e => rw [hg] at hr; cases hr
  | ok o =>
    cases o with
    | none => rw [hg] at hr; cases hr
    | some d =>
      rw [hg] at hr
      simp only [Option.some.injEq] at hr
      rw [hr]

theorem offers_absPath_of_all_sent (fs : String → FileData) (whiteList : List String) :
    ∀ deps : List String,
      (∀ v ∈ deps, ∃ d, getJson fs v whiteList = .ok (some d)) →
      (offers fs deps whiteList).map (fun d => d.AbsPath) = deps := by
  intro deps
  induction deps with
  | nil => intro _; rfl
  | cons v rest ih =>
    intro h
    obtain ⟨d, hd⟩ := h v (by simp)
    obtain ⟨b, d0, _, _, hr, _⟩ := getJson_sent_inv fs v whiteList d hd
    have ih0 := ih (fun w hw => h w (by simp [hw]))
    unfold offers at ih0 ⊢
    rw [List.filterMap_cons, hd]
    simp only [List.map_cons]
    rw [ih0, hr]

theorem pathWalk_ok_ne_nil (root : String) (tree : Node) (deps : List String)
    (h : pathWalk root tree = .ok deps) : deps ≠ [] := by
  unfold pathWalk at h
  simp only at h
  by_cases hlen : (Walk root tree).1.length < 1
  · rw [if_pos hlen] at h
    cases h
  · rw [if_neg hlen] at h
    injection h with h
    subst h
    intro hnil
    rw [hnil] at hlen
    simp at hlen

theorem pathWalk_error_iff (root : String) (tree : Node) :
    (∃ e, pathWalk root tree = .error e) ↔ (Walk root tree).1 = [] := by
  unfold pathWalk
  simp only
  cases h : (Walk root tree).1 with
  | nil => simp
  | cons a l => simp

theorem marshal_field_absPath (d : Dependency) : (marshal d).field "AbsPath" = some d.AbsPath :=
  rfl

theorem marshal_field_name (d : Dependency) : (marshal d).field "Name" = some d.Name := rfl

theorem report_filterMap_absPath (s : List Dependency) :
    (report s).filterMap (fun j => j.field "AbsPath") = s.map (fun d => d.AbsPath) := by
  induction s with
  | nil => rfl
  | cons d rest ih =>
    unfold report at ih ⊢
    rw [List.map_cons, List.filterMap_cons, marshal_field_absPath]
    simp only [List.map_cons]
    rw [ih]

theorem report_filterMap_name (s : List Dependency) :
    (report s).filterMap (fun j => j.field "Name") = s.map (fun d => d.Name) := by
  induction s with
  | nil => rfl
  | cons d rest ih =>
    unfold report at ih ⊢
    rw [List.map_cons, List.filterMap_cons, marshal_field_name]
    simp only [List.map_cons]
    rw [ih]

/-- C4: with an empty white list, paths `deps` returned by `pathWalk` and every manifest
decoding, for every order in which the channel delivers the offered records the gather loop
completes, and the report has one object per path: its length is the number of paths and the
`AbsPath` values of its objects are the paths, each once. -/
theorem gather_without_whitelist (sortSlice : SortSlice) (fs : String → FileData)
    (root : String) (tree : Node) (deps : List String) (arrivals : List Dependency)
    (hwalk : pathWalk root tree = .ok deps)
    (hparse : ∀ v ∈ deps, ∃ b d, fs v = .bytes b ∧ decode b = .ok d)
    (harr : arrivals.Perm (offers fs deps [])) :
    ∃ s out, chListener (depsCount deps []) arrivals 0 [] = some s ∧
      mainReport sortSlice deps [] arrivals = some out ∧
      out.length = deps.length ∧
      (out.filterMap (fun j => j.field "AbsPath")).Perm deps := by
  have hne := pathWalk_ok_ne_nil root tree deps hwalk
  have hsent : ∀ v ∈ deps, ∃ d, getJson fs v [] = .ok (some d) := by
    intro v hv
    obtain ⟨b, d, hb, hd⟩ := hparse v hv
    exact ⟨_, (getJson_whitelist_membership fs v [] b d hb hd).2.2 (Or.inl rfl)⟩
  have hpaths := offers_absPath_of_all_sent fs [] deps hsent
  have hlen : arrivals.length = deps.length := by
    rw [harr.length_eq, ← List.length_map (offers fs deps []) (fun d => d.AbsPath), hpaths]
  have hcount : depsCount deps [] = deps.length := by simp [depsCount]
  have hpos : 0 < deps.length := List.length_pos.2 hne
  have hrun : chListener (depsCount deps []) arrivals 0 [] = some arrivals := by
    rw [hcount, chListener_eq _ _ 0 [] hpos, if_pos (by omega)]
    simp only [Nat.sub_zero, List.nil_append]
    rw [← hlen, List.take_length]
  refine ⟨arrivals, report (sortSlice.run arrivals), hrun, ?_, ?_, ?_⟩
  · unfold mainReport
    rw [hrun]
  · unfold report
    rw [List.length_map, (sortSlice.perm arrivals).length_eq, hlen]
  · rw [report_filterMap_absPath, ← hpaths]
    exact ((sortSlice.perm arrivals).trans harr).map _

/-- C4 at a tree with one manifest. -/
theorem gather_without_whitelist_witness :
    ∃ s out, chListener (depsCount ["nm/a/package.json"] []) [recordA1] 0 [] = some s ∧
      mainReport stableSortSlice ["nm/a/package.json"] [] [recordA1] = some out ∧
      out.length = ["nm/a/package.json"].length ∧
      (out.filterMap (fun j => j.field "AbsPath")).Perm ["nm/a/package.json"] :=
  gather_without_whitelist stableSortSlice (constFs manifestArrayOfStrings) "nm" treeOne
    ["nm/a/package.json"] [recordA1] (by decide)
    (fun _ _ => ⟨_, ⟨"a", "1.0.0", "first", "https://a.example", "", "MIT"⟩, rfl, rfl⟩)
    (by
      have h : offers (constFs manifestArrayOfStrings) ["nm/a/package.json"] [] = [recordA1] := by
        decide
      rw [h])

/-- C5, counterexample: white list `["a", "b"]`, two manifests named `a` at different paths.
The loop completes after two messages; the report has two records named `a` and none named
`b`. -/
theorem c5_duplicate_name_fills_the_count :
    offers (constFs manifestArrayOfStrings)
      ["nm/a/package.json", "nm/x/node_modules/a/package.json"] ["a", "b"] =
      [recordA1, recordA2] ∧
    chListener
      (depsCount ["nm/a/package.json", "nm/x/node_modules/a/package.json"] ["a", "b"])
      [recordA1, recordA2] 0 [] = some [recordA1, recordA2] ∧
    [recordA1, recordA2].map (fun d => d.Name) = ["a", "a"] ∧
    "b" ∉ [recordA1, recordA2].map (fun d => d.Name) := by
  decide

/-- C5, amended: with a non-empty white list, whenever the gather loop completes on messages
delivered from the offered records, the report has as many records as the white list has
entries and every record carries a white-listed name; when no two offered records share a
name, the names in the report are the entries of the white list, each exactly once. -/
theorem gather_with_whitelist (sortSlice : SortSlice) (fs : String → FileData)
    (deps whiteList : List String) (arrivals s : List Dependency)
    (hne : whiteList ≠ [])
    (harr : arrivals.Subperm (offers fs deps whiteList))
    (hdone : chListener (depsCount deps whiteList) arrivals 0 [] = some s) :
    mainReport sortSlice deps whiteList arrivals = some (report (sortSlice.run s)) ∧
    (report (sortSlice.run s)).length = whiteList.length ∧
    (∀ name ∈ (report (sortSlice.run s)).filterMap (fun j => j.field "Name"),
      name ∈ whiteList) ∧
    (((offers fs deps whiteList).map (fun d => d.Name)).Nodup →
      ((report (sortSlice.run s)).filterMap (fun j => j.field "Name")).Perm whiteList) := by
  have hcount : depsCount deps whiteList = whiteList.length := by
    unfold depsCount
    rw [if_pos (List.length_pos.2 hne)]
  rw [hcount] at hdone
  obtain ⟨hs, hlen⟩ := chListener_done _ _ _ hdone
  have hsub : s.Subperm (offers fs deps whiteList) := by
    rw [hs]
    exact (List.take_sublist _ _).subperm.trans harr
  have hsorted : (sortSlice.run s).Subperm (offers fs deps whiteList) :=
    (sortSlice.perm s).subperm.trans hsub
  have hnames : ∀ name ∈ (sortSlice.run s).map (fun d => d.Name), name ∈ whiteList := by
    intro name hn
    rw [List.mem_map] at hn
    obtain ⟨r, hr, hrn⟩ := hn
    obtain ⟨v, _, hv⟩ := mem_offers fs deps whiteList r (hsorted.subset hr)
    rw [← hrn]
    exact (getJson_sent_name_of_whitelist fs v whiteList r hne hv)
  refine ⟨?_, ?_, ?_, ?_⟩
  · unfold mainReport
    rw [hcount, hdone]
  · unfold report
    rw [List.length_map, (sortSlice.perm s).length_eq, hlen]
  · rw [report_filterMap_name]
    exact hnames
  · intro hnodup
    rw [report_filterMap_name]
    have hnd : ((sortSlice.run s).map (fun d => d.Name)).Nodup := by
      obtain ⟨l, hl, hsl⟩ := hsorted
      exact ((hl.map (fun d => d.Name)).nodup_iff).1
        (hnodup.sublist (hsl.map (fun d => d.Name)))
    refine (List.subperm_of_subset hnd hnames).perm_of_length_le ?_
    rw [List.length_map, (sortSlice.perm s).length_eq, hlen]

/-- C5, amended, at one manifest named `a` and the white list `["a"]`. -/
theorem gather_with_whitelist_witness :
    mainReport stableSortSlice ["nm/a/package.json"] ["a"] [recordA1] =
      some (report (stableSortSlice.run [recordA1])) ∧
    (report (stableSortSlice.run [recordA1])).length = ["a"].length ∧
    (∀ name ∈ (report (stableSortSlice.run [recordA1])).filterMap (fun j => j.field "Name"),
      name ∈ ["a"]) ∧
    (((offers (constFs manifestArrayOfStrings) ["nm/a/package.json"] ["a"]).map
        (fun d => d.Name)).Nodup →
      ((report (stableSortSlice.run [recordA1])).filterMap
        (fun j => j.field "Name")).Perm ["a"]) :=
  gather_with_whitelist stableSortSlice (constFs manifestArrayOfStrings)
    ["nm/a/package.json"] ["a"] [recordA1] [recordA1] (by decide)
    (by
      have h : offers (constFs manifestArrayOfStrings) ["nm/a/package.json"] ["a"] =
          [recordA1] := by decide
      rw [h])
    (by decide)

/-! ## `sort.Slice`: basic facts -/

theorem Less_iff (data : Nat → Dependency) (i j : Nat) :
    Less data i j = true ↔ key (data i) < key (data j) := by
  unfold Less less key
  exact decide_eq_true_iff

theorem Less_false_iff (data : Nat → Dependency) (i j : Nat) :
    Less data i j = false ↔ key (data j) ≤ key (data i) := by
  rw [← not_lt, ← Less_iff]
  cases Less data i j <;> simp

theorem Swap_left (d : Nat → Dependency) (i j : Nat) : Swap d i j i = d j := by
  simp [Swap]

theorem Swap_right (d : Nat → Dependency) (i j : Nat) : Swap d i j j = d i := by
  unfold Swap
  by_cases h : j = i
  · simp [h]
  · simp [h]

theorem Swap_other (d : Nat → Dependency) (i j k : Nat) (hi : k ≠ i) (hj : k ≠ j) :
    Swap d i j k = d k := by
  simp [Swap, hi, hj]

theorem Reach.trans {a b : Nat} {d e f : Nat → Dependency} (h1 : Reach a b d e)
    (h2 : Reach a b e f) : Reach a b d f := by
  induction h2 with
  | refl => exact h1
  | swap i j hi hib hj hjb _ ih => exact Reach.swap i j hi hib hj hjb ih

theorem Reach.mono {a b a0 b0 : Nat} {d e : Nat → Dependency} (h : Reach a b d e)
    (ha : a0 ≤ a) (hb : b ≤ b0) : Reach a0 b0 d e := by
  induction h with
  | refl => exact Reach.refl _
  | swap i j hi hib hj hjb _ ih =>
    exact Reach.swap i j (by omega) (by omega) (by omega) (by omega) ih

theorem Reach.one {a b : Nat} (d : Nat → Dependency) (i j : Nat) (hi : a ≤ i) (hib : i < b)
    (hj : a ≤ j) (hjb : j < b) : Reach a b d (Swap d i j) :=
  Reach.swap i j hi hib hj hjb (Reach.refl d)

theorem Reach.outside {a b : Nat} {d e : Nat → Dependency} (h : Reach a b d e) (k : Nat)
    (hk : k < a ∨ b ≤ k) : e k = d k := by
  induction h with
  | refl => rfl
  | swap i j hi hib hj hjb _ ih =>
    rw [Swap_other _ _ _ _ (by omega) (by omega)]
    exact ih

theorem Reach.forall {a b : Nat} {d e : Nat → Dependency} (h : Reach a b d e)
    (P : Dependency → Prop) (hP : ∀ k, a ≤ k → k < b → P (d k)) :
    ∀ k, a ≤ k → k < b → P (e k) := by
  induction h with
  | refl => exact hP
  | swap i j hi hib hj hjb _ ih =>
    intro k hk hkb
    by_cases h1 : k = i
    · rw [h1, Swap_left]
      exact ih j hj hjb
    · by_cases h2 : k = j
      · rw [h2, Swap_right]
        exact ih i hi hib
      · rw [Swap_other _ _ _ _ h1 h2]
        exact ih k hk hkb

theorem SortedOn.congr {d e : Nat → Dependency} {a b : Nat} (h : SortedOn d a b)
    (he : ∀ k, a ≤ k → k < b → e k = d k) : SortedOn e a b := by
  intro i j hi hij hj
  rw [he i hi (by omega), he j (by omega) hj]
  exact h i j hi hij hj

theorem SortedOn.sub {d : Nat → Dependency} {a b a0 b0 : Nat} (h : SortedOn d a b)
    (ha : a ≤ a0) (hb : b0 ≤ b) : SortedOn d a0 b0 :=
  fun i j hi hij hj => h i j (by omega) hij (by omega)

/-! ## `sort.Slice`: insertion sort -/

theorem insertionInner_spec (a : Nat) :
    ∀ (k : Nat) (d : Nat → Dependency), SortedOn d a (a + k) →
      Reach a (a + k + 1) d (insertionInner a k d) ∧
      SortedOn (insertionInner a k d) a (a + k + 1) := by
  intro k
  induction k with
  | zero =>
    intro d _
    refine ⟨Reach.refl _, ?_⟩
    intro i j hi hij hj
    omega
  | succ k ih =>
    intro d hd
    unfold insertionInner
    by_cases hl : Less d (a + k + 1) (a + k) = true
    · rw [if_pos hl]
      have hlt := (Less_iff _ _ _).1 hl
      have hs1 : SortedOn (Swap d (a + k + 1) (a + k)) a (a + k) := by
        refine SortedOn.congr (hd.sub (le_refl _) (by omega)) ?_
        intro m hm hmb
        exact Swap_other _ _ _ _ (by omega) (by omega)
      obtain ⟨hr, hs⟩ := ih _ hs1
      have hr1 : Reach a (a + (k + 1) + 1) d (Swap d (a + k + 1) (a + k)) :=
        Reach.one d _ _ (by omega) (by omega) (by omega) (by omega)
      refine ⟨hr1.trans (hr.mono (le_refl _) (by omega)), ?_⟩
      intro i j hi hij hj
      by_cases hjl : j < a + k + 1
      · exact hs i j hi hij hjl
      · have hje : j = a + k + 1 := by omega
        rw [hje, hr.outside (a + k + 1) (by omega), Swap_left]
        refine hr.forall (fun x => key x ≤ key (d (a + k))) ?_ i hi (by omega)
        intro m hm hmb
        by_cases hme : m = a + k
        · rw [hme, Swap_right]
          exact le_of_lt hlt
        · rw [Swap_other _ _ _ _ (by omega) hme]
          exact hd m (a + k) hm (by omega) (by omega)
    · rw [if_neg hl]
      have hle := (Less_false_iff _ _ _).1 (by simpa using hl)
      refine ⟨Reach.refl _, ?_⟩
      intro i j hi hij hj
      by_cases hjl : j < a + k + 1
      · exact hd i j hi hij (by omega)
      · have hje : j = a + k + 1 := by omega
        rw [hje]
        by_cases hie : i = a + k
        · rw [hie]
          exact hle
        · exact le_trans (hd i (a + k) hi (by omega) (by omega)) hle

theorem insertionOuter_spec (a : Nat) :
    ∀ (m i : Nat) (d : Nat → Dependency), a < i → SortedOn d a i →
      Reach a (i + m) d (insertionOuter a m i d) ∧
      SortedOn (insertionOuter a m i d) a (i + m) := by
  intro m
  induction m with
  | zero =>
    intro i d _ hd
    exact ⟨Reach.refl _, hd⟩
  | succ m ih =>
    intro i d hai hd
    unfold insertionOuter
    have hi : a + (i - a) = i := by omega
    have h0 := insertionInner_spec a (i - a) d (by rw [hi]; exact hd)
    rw [hi] at h0
    obtain ⟨hr, hs⟩ := ih (i + 1) _ (by omega) h0.2
    have he : i + 1 + m = i + (m + 1) := by omega
    rw [he] at hr hs
    exact ⟨(h0.1.mono (le_refl _) (by omega)).trans hr, hs⟩

theorem insertionSort_spec (d : Nat → Dependency) (a b : Nat) :
    Reach a b d (insertionSort_func d a b) ∧ SortedOn (insertionSort_func d a b) a b := by
  unfold insertionSort_func
  by_cases hab : a < b
  · have h := insertionOuter_spec a (b - (a + 1)) (a + 1) d (by omega)
      (fun i j hi hij hj => by omega)
    have he : a + 1 + (b - (a + 1)) = b := by omega
    rw [he] at h
    exact h
  · have he : b - (a + 1) = 0 := by omega
    rw [he]
    exact ⟨Reach.refl _, fun i j hi hij hj => by omega⟩

/-! ## `sort.Slice`: partition -/

theorem scanLess_spec (d : Nat → Dependency) (a : Nat) :
    ∀ (m i : Nat), i ≤ scanLess d a m i ∧ scanLess d a m i ≤ i + m ∧
      (∀ k, i ≤ k → k < scanLess d a m i → key (d k) < key (d a)) ∧
      (scanLess d a m i < i + m → key (d a) ≤ key (d (scanLess d a m i))) := by
  intro m
  induction m with
  | zero =>
    intro i
    refine ⟨le_refl _, le_refl _, fun k h1 h2 => ?_, fun h => ?_⟩
    · simp only [scanLess] at h2
      omega
    · simp only [scanLess] at h
      omega
  | succ m ih =>
    intro i
    unfold scanLess
    by_cases hl : Less d i a = true
    · rw [if_pos hl]
      obtain ⟨h1, h2, h3, h4⟩ := ih (i + 1)
      refine ⟨by omega, by omega, fun k hk hk2 => ?_, fun h => h4 (by omega)⟩
      by_cases hki : k = i
      · rw [hki]
        exact (Less_iff _ _ _).1 hl
      · exact h3 k (by omega) hk2
    · rw [if_neg hl]
      refine ⟨le_refl _, by omega, fun k h1 h2 => by omega, fun _ => ?_⟩
      exact (Less_false_iff _ _ _).1 (by simpa using hl)

theorem scanNotLess_spec (d : Nat → Dependency) (a : Nat) :
    ∀ (m j : Nat), m ≤ j → scanNotLess d a m j ≤ j ∧ j ≤ scanNotLess d a m j + m ∧
      (∀ k, scanNotLess d a m j < k → k ≤ j → key (d a) ≤ key (d k)) ∧
      (j < scanNotLess d a m j + m → key (d (scanNotLess d a m j)) < key (d a)) := by
  intro m
  induction m with
  | zero =>
    intro j _
    refine ⟨le_refl _, le_refl _, fun k h1 h2 => ?_, fun h => ?_⟩
    · simp only [scanNotLess] at h1
      omega
    · simp only [scanNotLess] at h
      omega
  | succ m ih =>
    intro j hmj
    unfold scanNotLess
    by_cases hl : Less d j a = true
    · rw [if_pos hl]
      refine ⟨le_refl _, by omega, fun k h1 h2 => by omega, fun _ => ?_⟩
      exact (Less_iff _ _ _).1 hl
    · rw [if_neg hl]
      obtain ⟨h1, h2, h3, h4⟩ := ih (j - 1) (by omega)
      refine ⟨by omega, by omega, fun k hk hk2 => ?_, fun h => h4 (by omega)⟩
      by_cases hkj : k = j
      · rw [hkj]
        exact (Less_false_iff _ _ _).1 (by simpa using hl)
      · exact h3 k hk (by omega)

theorem partition_step (a b : Nat) (d : Nat → Dependency) (i j : Nat)
    (hinv : PartInv a b d i j) :
    (scanLess d a (j + 1 - i) i > scanNotLess d a (j + 1 - scanLess d a (j + 1 - i) i) j →
      PartPost a b d d (scanNotLess d a (j + 1 - scanLess d a (j + 1 - i) i) j)) ∧
    (¬ scanLess d a (j + 1 - i) i > scanNotLess d a (j + 1 - scanLess d a (j + 1 - i) i) j →
      PartInv a b
        (Swap d (scanLess d a (j + 1 - i) i)
          (scanNotLess d a (j + 1 - scanLess d a (j + 1 - i) i) j))
        (scanLess d a (j + 1 - i) i + 1)
        (scanNotLess d a (j + 1 - scanLess d a (j + 1 - i) i) j - 1) ∧
      a < scanLess d a (j + 1 - i) i ∧
      scanLess d a (j + 1 - i) i <
        scanNotLess d a (j + 1 - scanLess d a (j + 1 - i) i) j ∧
      scanNotLess d a (j + 1 - scanLess d a (j + 1 - i) i) j < b ∧
      scanNotLess d a (j + 1 - scanLess d a (j + 1 - i) i) j - 1 + 1 -
        (scanLess d a (j + 1 - i) i + 1) + 2 ≤ j + 1 - i) := by
  obtain ⟨hai, hij, hjb, hlo, hhi⟩ := hinv
  obtain ⟨u1, u2, u3, u4⟩ := scanLess_spec d a (j + 1 - i) i
  generalize scanLess d a (j + 1 - i) i = i1 at u1 u2 u3 u4 ⊢
  obtain ⟨v1, v2, v3, v4⟩ := scanNotLess_spec d a (j + 1 - i1) j (by omega)
  generalize scanNotLess d a (j + 1 - i1) j = j1 at v1 v2 v3 v4 ⊢
  constructor
  · intro hgt
    refine ⟨Reach.refl _, by omega, by omega, fun k hk hk2 => ?_, fun k hk hk2 => ?_⟩
    · by_cases hki : k < i
      · exact hlo k hk hki
      · exact u3 k (by omega) (by omega)
    · by_cases hkj : j < k
      · exact hhi k hkj hk2
      · exact v3 k hk (by omega)
  · intro hle
    have hp1 : key (d a) ≤ key (d i1) := u4 (by omega)
    have hp2 : key (d j1) < key (d a) := v4 (by omega)
    have hne : i1 ≠ j1 := by
      intro h
      rw [h] at hp1
      exact absurd hp2 (not_lt.2 hp1)
    have hda : Swap d i1 j1 a = d a := Swap_other _ _ _ _ (by omega) (by omega)
    refine ⟨⟨by omega, by omega, by omega, fun k hk hk2 => ?_, fun k hk hk2 => ?_⟩,
      by omega, by omega, by omega, by omega⟩
    · rw [hda]
      by_cases hki : k = i1
      · rw [hki, Swap_left]
        exact hp2
      · rw [Swap_other _ _ _ _ hki (by omega)]
        by_cases hki2 : k < i
        · exact hlo k hk hki2
        · exact u3 k (by omega) (by omega)
    · rw [hda]
      by_cases hkj : k = j1
      · rw [hkj, Swap_right]
        exact hp1
      · rw [Swap_other _ _ _ _ (by omega) hkj]
        by_cases hkj2 : j < k
        · exact hhi k hkj2 hk2
        · exact v3 k (by omega) (by omega)

theorem PartPost.after_swap {a b : Nat} {d e : Nat → Dependency} {i1 j1 mid : Nat}
    (hi : a < i1) (hib : i1 < b) (hj : a < j1) (hjb : j1 < b)
    (h : PartPost a b (Swap d i1 j1) e mid) : PartPost a b d e mid := by
  obtain ⟨hr, h1, h2, h3, h4⟩ := h
  have hda : Swap d i1 j1 a = d a := Swap_other _ _ _ _ (by omega) (by omega)
  rw [hda] at h3 h4
  exact ⟨(Reach.one d i1 j1 (by omega) hib (by omega) hjb).trans hr, h1, h2, h3, h4⟩

theorem partitionLoop_spec (a b : Nat) :
    ∀ (fuel i j : Nat) (d : Nat → Dependency), PartInv a b d i j → j + 1 - i ≤ fuel →
      PartPost a b d (partitionLoop a fuel i j d).1 (partitionLoop a fuel i j d).2 := by
  intro fuel
  induction fuel with
  | zero =>
    intro i j d hinv hf
    obtain ⟨hai, hij, hjb, hlo, hhi⟩ := hinv
    simp only [partitionLoop]
    exact ⟨Reach.refl _, by omega, hjb, fun k hk hk2 => hlo k hk (by omega), hhi⟩
  | succ fuel ih =>
    intro i j d hinv hf
    obtain ⟨hstop, hgo⟩ := partition_step a b d i j hinv
    unfold partitionLoop
    simp only
    by_cases hgt : scanLess d a (j + 1 - i) i >
        scanNotLess d a (j + 1 - scanLess d a (j + 1 - i) i) j
    · rw [if_pos hgt]
      exact hstop hgt
    · rw [if_neg hgt]
      obtain ⟨hinv1, g1, g2, g3, g4⟩ := hgo hgt
      exact (ih _ _ _ hinv1 (by omega)).after_swap g1 (by omega) (by omega) g3

/-- What `partition_func` leaves: below `mid` smaller keys, at `mid` the pivot, above it keys
that are not smaller. -/
theorem partition_spec (d : Nat → Dependency) (a b pivot : Nat) (hp : a ≤ pivot)
    (hpb : pivot < b) :
    Reach a b d (partition_func d a b pivot).1 ∧
    a ≤ (partition_func d a b pivot).2.1 ∧ (partition_func d a b pivot).2.1 < b ∧
    (∀ k, a ≤ k → k < (partition_func d a b pivot).2.1 →
      key ((partition_func d a b pivot).1 k) < key (d pivot)) ∧
    key ((partition_func d a b pivot).1 (partition_func d a b pivot).2.1) = key (d pivot) ∧
    (∀ k, (partition_func d a b pivot).2.1 < k → k < b →
      key (d pivot) ≤ key ((partition_func d a b pivot).1 k)) := by
  have hd1 : Swap d a pivot a = d pivot := Swap_left _ _ _
  have hr1 : Reach a b d (Swap d a pivot) := Reach.one d a pivot (le_refl _) (by omega) hp hpb
  have hinv : PartInv a b (Swap d a pivot) (a + 1) (b - 1) :=
    ⟨by omega, by omega, by omega, fun k h1 h2 => by omega, fun k h1 h2 => by omega⟩
  have fin : ∀ (e : Nat → Dependency) (mid : Nat), PartPost a b (Swap d a pivot) e mid →
      Reach a b d (Swap e mid a) ∧ a ≤ mid ∧ mid < b ∧
      (∀ k, a ≤ k → k < mid → key (Swap e mid a k) < key (d pivot)) ∧
      key (Swap e mid a mid) = key (d pivot) ∧
      (∀ k, mid < k → k < b → key (d pivot) ≤ key (Swap e mid a k)) := by
    intro e mid hpost
    obtain ⟨hr, h1, h2, h3, h4⟩ := hpost
    rw [hd1] at h3 h4
    have hea : e a = d pivot := by
      rw [hr.outside a (by omega), hd1]
    refine ⟨(hr1.trans (hr.mono (by omega) (le_refl _))).trans
        (Reach.one e mid a h1 h2 (le_refl _) (by omega)), h1, h2,
      fun k hk hk2 => ?_, ?_, fun k hk hk2 => ?_⟩
    · by_cases hka : k = a
      · rw [hka, Swap_right]
        exact h3 mid (by omega) (le_refl _)
      · rw [Swap_other _ _ _ _ (by omega) hka]
        exact h3 k (by omega) (by omega)
    · rw [Swap_left, hea]
    · rw [Swap_other _ _ _ _ (by omega) (by omega)]
      exact h4 k hk hk2
  obtain ⟨hstop, hgo⟩ := partition_step a b (Swap d a pivot) (a + 1) (b - 1) hinv
  unfold partition_func
  simp only
  by_cases hgt : scanLess (Swap d a pivot) a (b - 1 + 1 - (a + 1)) (a + 1) >
      scanNotLess (Swap d a pivot) a
        (b - 1 + 1 - scanLess (Swap d a pivot) a (b - 1 + 1 - (a + 1)) (a + 1)) (b - 1)
  · rw [if_pos hgt]
    exact fin _ _ (hstop hgt)
  · rw [if_neg hgt]
    obtain ⟨hinv1, g1, g2, g3, g4⟩ := hgo hgt
    exact fin _ _ ((partitionLoop_spec a b _ _ _ _ hinv1 (le_refl _)).after_swap g1
      (by omega) (by omega) g3)

/-! ## `sort.Slice`: partition around equal keys -/

theorem scanNotGreater_spec (d : Nat → Dependency) (a : Nat) :
    ∀ (m i : Nat), i ≤ scanNotGreater d a m i ∧ scanNotGreater d a m i ≤ i + m ∧
      (∀ k, i ≤ k → k < scanNotGreater d a m i → key (d k) ≤ key (d a)) ∧
      (scanNotGreater d a m i < i + m → key (d a) < key (d (scanNotGreater d a m i))) := by
  intro m
  induction m with
  | zero =>
    intro i
    refine ⟨le_refl _, le_refl _, fun k h1 h2 => ?_, fun h => ?_⟩
    · simp only [scanNotGreater] at h2
      omega
    · simp only [scanNotGreater] at h
      omega
  | succ m ih =>
    intro i
    unfold scanNotGreater
    by_cases hl : Less d a i = true
    · rw [if_pos hl]
      refine ⟨le_refl _, by omega, fun k h1 h2 => by omega, fun _ => ?_⟩
      exact (Less_iff _ _ _).1 hl
    · rw [if_neg hl]
      obtain ⟨h1, h2, h3, h4⟩ := ih (i + 1)
      refine ⟨by omega, by omega, fun k hk hk2 => ?_, fun h => h4 (by omega)⟩
      by_cases hki : k = i
      · rw [hki]
        exact (Less_false_iff _ _ _).1 (by simpa using hl)
      · exact h3 k (by omega) hk2

theorem scanGreater_spec (d : Nat → Dependency) (a : Nat) :
    ∀ (m j : Nat), m ≤ j → scanGreater d a m j ≤ j ∧ j ≤ scanGreater d a m j + m ∧
      (∀ k, scanGreater d a m j < k → k ≤ j → key (d a) < key (d k)) ∧
      (j < scanGreater d a m j + m → key (d (scanGreater d a m j)) ≤ key (d a)) := by
  intro m
  induction m with
  | zero =>
    intro j _
    refine ⟨le_refl _, le_refl _, fun k h1 h2 => ?_, fun h => ?_⟩
    · simp only [scanGreater] at h1
      omega
    · simp only [scanGreater] at h
      omega
  | succ m ih =>
    intro j hmj
    unfold scanGreater
    by_cases hl : Less d a j = true
    · rw [if_pos hl]
      obtain ⟨h1, h2, h3, h4⟩ := ih (j - 1) (by omega)
      refine ⟨by omega, by omega, fun k hk hk2 => ?_, fun h => h4 (by omega)⟩
      by_cases hkj : k = j
      · rw [hkj]
        exact (Less_iff _ _ _).1 hl
      · exact h3 k hk (by omega)
    · rw [if_neg hl]
      refine ⟨le_refl _, by omega, fun k h1 h2 => by omega, fun _ => ?_⟩
      exact (Less_false_iff _ _ _).1 (by simpa using hl)

theorem partitionEqual_step (a b : Nat) (d : Nat → Dependency) (i j : Nat)
    (hinv : EqInv a b d i j) :
    (scanNotGreater d a (j + 1 - i) i >
        scanGreater d a (j + 1 - scanNotGreater d a (j + 1 - i) i) j →
      EqPost a b d d (scanNotGreater d a (j + 1 - i) i)) ∧
    (¬ scanNotGreater d a (j + 1 - i) i >
        scanGreater d a (j + 1 - scanNotGreater d a (j + 1 - i) i) j →
      EqInv a b
        (Swap d (scanNotGreater d a (j + 1 - i) i)
          (scanGreater d a (j + 1 - scanNotGreater d a (j + 1 - i) i) j))
        (scanNotGreater d a (j + 1 - i) i + 1)
        (scanGreater d a (j + 1 - scanNotGreater d a (j + 1 - i) i) j - 1) ∧
      a < scanNotGreater d a (j + 1 - i) i ∧
      scanNotGreater d a (j + 1 - i) i <
        scanGreater d a (j + 1 - scanNotGreater d a (j + 1 - i) i) j ∧
      scanGreater d a (j + 1 - scanNotGreater d a (j + 1 - i) i) j < b ∧
      scanGreater d a (j + 1 - scanNotGreater d a (j + 1 - i) i) j - 1 + 1 -
        (scanNotGreater d a (j + 1 - i) i + 1) + 2 ≤ j + 1 - i) := by
  obtain ⟨hai, hij, hjb, hlo, hhi⟩ := hinv
  obtain ⟨u1, u2, u3, u4⟩ := scanNotGreater_spec d a (j + 1 - i) i
  generalize scanNotGreater d a (j + 1 - i) i = i1 at u1 u2 u3 u4 ⊢
  obtain ⟨v1, v2, v3, v4⟩ := scanGreater_spec d a (j + 1 - i1) j (by omega)
  generalize scanGreater d a (j + 1 - i1) j = j1 at v1 v2 v3 v4 ⊢
  constructor
  · intro hgt
    refine ⟨Reach.refl _, by omega, by omega, fun k hk hk2 => ?_, fun k hk hk2 => ?_⟩
    · by_cases hki : k < i
      · exact hlo k hk hki
      · exact u3 k (by omega) (by omega)
    · by_cases hkj : j < k
      · exact hhi k hkj hk2
      · exact v3 k (by omega) (by omega)
  · intro hle
    have hp1 : key (d a) < key (d i1) := u4 (by omega)
    have hp2 : key (d j1) ≤ key (d a) := v4 (by omega)
    have hne : i1 ≠ j1 := by
      intro h
      rw [h] at hp1
      exact absurd hp1 (not_lt.2 hp2)
    have hda : Swap d i1 j1 a = d a := Swap_other _ _ _ _ (by omega) (by omega)
    refine ⟨⟨by omega, by omega, by omega, fun k hk hk2 => ?_, fun k hk hk2 => ?_⟩,
      by omega, by omega, by omega, by omega⟩
    · rw [hda]
      by_cases hki : k = i1
      · rw [hki, Swap_left]
        exact hp2
      · rw [Swap_other _ _ _ _ hki (by omega)]
        by_cases hki2 : k < i
        · exact hlo k hk hki2
        · exact u3 k (by omega) (by omega)
    · rw [hda]
      by_cases hkj : k = j1
      · rw [hkj, Swap_right]
        exact hp1
      · rw [Swap_other _ _ _ _ (by omega) hkj]
        by_cases hkj2 : j < k
        · exact hhi k hkj2 hk2
        · exact v3 k (by omega) (by omega)

theorem EqPost.after_equal_swap {a b : Nat} {d e : Nat → Dependency} {i1 j1 mid : Nat}
    (hi : a < i1) (hib : i1 < b) (hj : a < j1) (hjb : j1 < b)
    (h : EqPost a b (Swap d i1 j1) e mid) : EqPost a b d e mid := by
  obtain ⟨hr, h1, h2, h3, h4⟩ := h
  have hda : Swap d i1 j1 a = d a := Swap_other _ _ _ _ (by omega) (by omega)
  rw [hda] at h3 h4
  exact ⟨(Reach.one d i1 j1 (by omega) hib (by omega) hjb).trans hr, h1, h2, h3, h4⟩

theorem partitionEqualLoop_spec (a b : Nat) :
    ∀ (fuel i j : Nat) (d : Nat → Dependency), EqInv a b d i j → j + 1 - i ≤ fuel →
      EqPost a b d (partitionEqualLoop a fuel i j d).1 (partitionEqualLoop a fuel i j d).2 := by
  intro fuel
  induction fuel with
  | zero =>
    intro i j d hinv hf
    obtain ⟨hai, hij, hjb, hlo, hhi⟩ := hinv
    simp only [partitionEqualLoop]
    exact ⟨Reach.refl _, hai, by omega, hlo, fun k hk hk2 => hhi k (by omega) hk2⟩
  | succ fuel ih =>
    intro i j d hinv hf
    obtain ⟨hstop, hgo⟩ := partitionEqual_step a b d i j hinv
    unfold partitionEqualLoop
    simp only
    by_cases hgt : scanNotGreater d a (j + 1 - i) i >
        scanGreater d a (j + 1 - scanNotGreater d a (j + 1 - i) i) j
    · rw [if_pos hgt]
      exact hstop hgt
    · rw [if_neg hgt]
      obtain ⟨hinv1, g1, g2, g3, g4⟩ := hgo hgt
      exact (ih _ _ _ hinv1 (by omega)).after_equal_swap g1 (by omega) (by omega) g3

/-- What `partitionEqual_func` leaves: below `mid` keys that are not greater than the pivot,
from `mid` on greater keys. -/
theorem partitionEqual_spec (d : Nat → Dependency) (a b pivot : Nat) (hp : a ≤ pivot)
    (hpb : pivot < b) :
    Reach a b d (partitionEqual_func d a b pivot).1 ∧
    a < (partitionEqual_func d a b pivot).2 ∧ (partitionEqual_func d a b pivot).2 ≤ b ∧
    (∀ k, a ≤ k → k < (partitionEqual_func d a b pivot).2 →
      key ((partitionEqual_func d a b pivot).1 k) ≤ key (d pivot)) ∧
    (∀ k, (partitionEqual_func d a b pivot).2 ≤ k → k < b →
      key (d pivot) < key ((partitionEqual_func d a b pivot).1 k)) := by
  have hd1 : Swap d a pivot a = d pivot := Swap_left _ _ _
  have hr1 : Reach a b d (Swap d a pivot) := Reach.one d a pivot (le_refl _) (by omega) hp hpb
  have hinv : EqInv a b (Swap d a pivot) (a + 1) (b - 1) :=
    ⟨by omega, by omega, by omega, fun k h1 h2 => by omega, fun k h1 h2 => by omega⟩
  obtain ⟨hr, h1, h2, h3, h4⟩ :=
    partitionEqualLoop_spec a b (b - 1 + 1 - (a + 1)) (a + 1) (b - 1) _ hinv (le_refl _)
  rw [hd1] at h3 h4
  unfold partitionEqual_func
  refine ⟨hr1.trans (hr.mono (by omega) (le_refl _)), h1, h2, fun k hk hk2 => ?_, h4⟩
  by_cases hka : k = a
  · rw [hka, hr.outside a (by omega), hd1]
  · exact h3 k (by omega) hk2

/-! ## `sort.Slice`: the pivot, the reversal, the scattering -/

theorem reverseLoop_reach (a b : Nat) :
    ∀ (fuel i j : Nat) (d : Nat → Dependency), a ≤ i → j < b →
      Reach a b d (reverseLoop fuel i j d) := by
  intro fuel
  induction fuel with
  | zero =>
    intro i j d _ _
    exact Reach.refl _
  | succ fuel ih =>
    intro i j d hi hj
    unfold reverseLoop
    by_cases hij : i < j
    · rw [if_pos hij]
      exact (Reach.one d i j hi (by omega) (by omega) hj).trans
        (ih (i + 1) (j - 1) _ (by omega) (by omega))
    · rw [if_neg hij]
      exact Reach.refl _

theorem reverseRange_reach (d : Nat → Dependency) (a b : Nat) (hab : a < b) :
    Reach a b d (reverseRange_func d a b) :=
  reverseLoop_reach a b (b - a) a (b - 1) d (le_refl _) (by omega)

theorem breakIndex_lt (random length : Nat) (h : 0 < length) :
    breakIndex random length < length := by
  have hb : bitsLen length = Nat.log2 length + 1 := by
    unfold bitsLen
    rw [if_neg (by omega)]
  have h1 : random &&& (2 ^ (Nat.log2 length + 1) - 1) ≤ 2 ^ (Nat.log2 length + 1) - 1 :=
    Nat.and_le_right
  have h2 : 2 ^ Nat.log2 length ≤ length := Nat.log2_self_le (by omega)
  have h3 : 2 ^ (Nat.log2 length + 1) = 2 * 2 ^ Nat.log2 length := by
    rw [pow_succ]
    omega
  have h4 : 0 < 2 ^ Nat.log2 length := pow_pos (by omega) _
  unfold breakIndex
  simp only
  rw [hb]
  generalize random &&& (2 ^ (Nat.log2 length + 1) - 1) = other at h1 ⊢
  by_cases ho : other ≥ length
  · rw [if_pos ho]
    omega
  · rw [if_neg ho]
    omega

theorem breakPatterns_reach (d : Nat → Dependency) (a b : Nat) :
    Reach a b d (breakPatterns_func d a b) := by
  unfold breakPatterns_func
  by_cases h : b - a ≥ 8
  · rw [if_pos h]
    simp only
    have h1 := breakIndex_lt (xorshiftNext (b - a)) (b - a) (by omega)
    have h2 := breakIndex_lt (xorshiftNext (xorshiftNext (b - a))) (b - a) (by omega)
    have h3 := breakIndex_lt (xorshiftNext (xorshiftNext (xorshiftNext (b - a)))) (b - a)
      (by omega)
    refine Reach.swap _ _ (by omega) (by omega) (by omega) (by omega) ?_
    refine Reach.swap _ _ (by omega) (by omega) (by omega) (by omega) ?_
    exact Reach.one d _ _ (by omega) (by omega) (by omega) (by omega)
  · rw [if_neg h]
    exact Reach.refl _

theorem median_mem (d : Nat → Dependency) (x y z s : Nat) :
    (median_func d x y z s).1 = x ∨ (median_func d x y z s).1 = y ∨
      (median_func d x y z s).1 = z := by
  unfold median_func order2_func
  simp only
  split_ifs <;> simp

theorem median_bounds (d : Nat → Dependency) (x y z s lo hi : Nat)
    (hx : lo ≤ x ∧ x < hi) (hy : lo ≤ y ∧ y < hi) (hz : lo ≤ z ∧ z < hi) :
    lo ≤ (median_func d x y z s).1 ∧ (median_func d x y z s).1 < hi := by
  rcases median_mem d x y z s with h | h | h <;> rw [h] <;> assumption

theorem choosePivot_mem (d : Nat → Dependency) (a b : Nat) (hab : a < b) :
    a ≤ (choosePivot_func d a b).1 ∧ (choosePivot_func d a b).1 < b := by
  have key1 : ∀ r : Nat × Nat, (a ≤ r.1 ∧ r.1 < b) →
      a ≤ (if r.2 = 0 then (r.1, sortedHint.increasingHint)
        else if r.2 = 4 * 3 then (r.1, sortedHint.decreasingHint)
        else (r.1, sortedHint.unknownHint)).1 ∧
      (if r.2 = 0 then (r.1, sortedHint.increasingHint)
        else if r.2 = 4 * 3 then (r.1, sortedHint.decreasingHint)
        else (r.1, sortedHint.unknownHint)).1 < b := by
    intro r hr
    split_ifs <;> exact hr
  unfold choosePivot_func
  simp only
  apply key1
  by_cases h8 : b - a ≥ 8
  · rw [if_pos h8]
    by_cases h50 : b - a ≥ 50
    · rw [if_pos h50]
      unfold medianAdjacent_func
      refine median_bounds d _ _ _ _ a b ?_ ?_ ?_
      · exact median_bounds d _ _ _ _ a b ⟨by omega, by omega⟩ ⟨by omega, by omega⟩
          ⟨by omega, by omega⟩
      · exact median_bounds d _ _ _ _ a b ⟨by omega, by omega⟩ ⟨by omega, by omega⟩
          ⟨by omega, by omega⟩
      · exact median_bounds d _ _ _ _ a b ⟨by omega, by omega⟩ ⟨by omega, by omega⟩
          ⟨by omega, by omega⟩
    · rw [if_neg h50]
      exact median_bounds d _ _ _ _ a b ⟨by omega, by omega⟩ ⟨by omega, by omega⟩
        ⟨by omega, by omega⟩
  · rw [if_neg h8]
    simp only
    omega

/-! ## `sort.Slice`: partial insertion sort -/

theorem LowerOk.of_reach {a b : Nat} {d e : Nat → Dependency} (h : LowerOk a b d)
    (hr : Reach a b d e) : LowerOk a b e := by
  intro k hk hkb ha
  rw [hr.outside (a - 1) (by omega)]
  exact hr.forall (fun x => key (d (a - 1)) ≤ key x) (fun m hm hmb => h m hm hmb ha) k hk hkb

theorem scanOrdered_spec (d : Nat → Dependency) (a : Nat) :
    ∀ (m i : Nat), a < i → SortedOn d a i →
      i ≤ scanOrdered d m i ∧ scanOrdered d m i ≤ i + m ∧
      SortedOn d a (scanOrdered d m i) ∧
      (scanOrdered d m i < i + m →
        key (d (scanOrdered d m i)) < key (d (scanOrdered d m i - 1))) := by
  intro m
  induction m with
  | zero =>
    intro i _ hs
    simp only [scanOrdered]
    exact ⟨le_refl _, le_refl _, hs, fun h => by omega⟩
  | succ m ih =>
    intro i hai hs
    unfold scanOrdered
    by_cases hl : Less d i (i - 1) = true
    · rw [if_pos hl]
      exact ⟨le_refl _, by omega, hs, fun _ => (Less_iff _ _ _).1 hl⟩
    · rw [if_neg hl]
      have hle := (Less_false_iff _ _ _).1 (by simpa using hl)
      have hs1 : SortedOn d a (i + 1) := by
        intro x y hx hxy hy
        by_cases hyi : y < i
        · exact hs x y hx hxy hyi
        · have hye : y = i := by omega
          rw [hye]
          by_cases hxe : x = i - 1
          · rw [hxe]
            exact hle
          · exact le_trans (hs x (i - 1) hx (by omega) (by omega)) hle
      obtain ⟨h1, h2, h3, h4⟩ := ih (i + 1) (by omega) hs1
      exact ⟨by omega, by omega, h3, fun h => h4 (by omega)⟩

theorem shiftSmaller_spec (a : Nat) :
    ∀ (j : Nat) (d : Nat → Dependency), a ≤ j → SortedOn d a j → LowerOk a (j + 1) d →
      Reach a (j + 1) d (shiftSmaller j d) ∧ SortedOn (shiftSmaller j d) a (j + 1) := by
  intro j
  induction j with
  | zero =>
    intro d _ _ _
    simp only [shiftSmaller]
    exact ⟨Reach.refl _, fun x y hx hxy hy => by omega⟩
  | succ j ih =>
    intro d haj hs hlow
    unfold shiftSmaller
    by_cases hl : Less d (j + 1) j = true
    · rw [if_pos hl]
      have hlt := (Less_iff _ _ _).1 hl
      have hja : a ≤ j := by
        by_contra hc
        have hae : j = a - 1 := by omega
        have h1 := hlow (j + 1) (by omega) (by omega) (by omega)
        rw [← hae] at h1
        exact absurd hlt (not_lt.2 h1)
      have hs1 : SortedOn (Swap d (j + 1) j) a j := by
        refine SortedOn.congr (hs.sub (le_refl _) (by omega)) ?_
        intro m hm hmb
        exact Swap_other _ _ _ _ (by omega) (by omega)
      have hlow1 : LowerOk a (j + 1) (Swap d (j + 1) j) := by
        intro k hk hkb ha
        rw [Swap_other d (j + 1) j (a - 1) (by omega) (by omega)]
        by_cases hkj : k = j
        · rw [hkj, Swap_right]
          exact hlow (j + 1) (by omega) (by omega) ha
        · rw [Swap_other _ _ _ _ (by omega) hkj]
          exact hlow k hk (by omega) ha
      obtain ⟨hr, hsorted⟩ := ih _ hja hs1 hlow1
      refine ⟨(Reach.one d (j + 1) j (by omega) (by omega) hja (by omega)).trans
        (hr.mono (le_refl _) (by omega)), ?_⟩
      intro x y hx hxy hy
      by_cases hyl : y < j + 1
      · exact hsorted x y hx hxy hyl
      · have hye : y = j + 1 := by omega
        rw [hye, hr.outside (j + 1) (by omega), Swap_left]
        refine hr.forall (fun z => key z ≤ key (d j)) ?_ x hx (by omega)
        intro m hm hmb
        by_cases hme : m = j
        · rw [hme, Swap_right]
          exact le_of_lt hlt
        · rw [Swap_other _ _ _ _ (by omega) hme]
          exact hs m j hm (by omega) (by omega)
    · rw [if_neg hl]
      have hle := (Less_false_iff _ _ _).1 (by simpa using hl)
      refine ⟨Reach.refl _, ?_⟩
      intro x y hx hxy hy
      by_cases hyl : y < j + 1
      · exact hs x y hx hxy hyl
      · have hye : y = j + 1 := by omega
        rw [hye]
        by_cases hxe : x = j
        · rw [hxe]
          exact hle
        · exact le_trans (hs x j hx (by omega) (by omega)) hle

theorem shiftGreater_reach (lo b : Nat) :
    ∀ (m j : Nat) (d : Nat → Dependency), lo < j → j + m ≤ b →
      Reach lo b d (shiftGreater m j d) := by
  intro m
  induction m with
  | zero =>
    intro j d _ _
    exact Reach.refl _
  | succ m ih =>
    intro j d hj hjb
    unfold shiftGreater
    by_cases hl : Less d j (j - 1) = true
    · rw [if_pos hl]
      exact (Reach.one d j (j - 1) (by omega) (by omega) (by omega) (by omega)).trans
        (ih (j + 1) _ (by omega) (by omega))
    · rw [if_neg hl]
      exact Reach.refl _

theorem partialInsertionLoop_spec (a b : Nat) :
    ∀ (steps i : Nat) (d : Nat → Dependency), a < i → i ≤ b → SortedOn d a i →
      LowerOk a b d →
      Reach a b d (partialInsertionLoop a b steps i d).1 ∧
      ((partialInsertionLoop a b steps i d).2 = true →
        SortedOn (partialInsertionLoop a b steps i d).1 a b) := by
  intro steps
  induction steps with
  | zero =>
    intro i d _ _ _ _
    simp only [partialInsertionLoop]
    exact ⟨Reach.refl _, fun h => by cases h⟩
  | succ steps ih =>
    intro i d hai hib hs hlow
    obtain ⟨u1, u2, u3, u4⟩ := scanOrdered_spec d a (b - i) i hai hs
    unfold partialInsertionLoop
    simp only
    generalize scanOrdered d (b - i) i = i1 at u1 u2 u3 u4 ⊢
    by_cases hend : i1 = b
    · rw [if_pos hend]
      simp only
      rw [hend] at u3
      exact ⟨Reach.refl _, fun _ => u3⟩
    · rw [if_neg hend]
      by_cases hshort : b - a < 50
      · rw [if_pos hshort]
        exact ⟨Reach.refl _, fun h => by cases h⟩
      · rw [if_neg hshort]
        have hi1b : i1 < b := by omega
        have hr1 : Reach a b d (Swap d i1 (i1 - 1)) :=
          Reach.one d i1 (i1 - 1) (by omega) hi1b (by omega) (by omega)
        have hs1 : SortedOn (Swap d i1 (i1 - 1)) a (i1 - 1) := by
          refine SortedOn.congr (u3.sub (le_refl _) (by omega)) ?_
          intro m hm hmb
          exact Swap_other _ _ _ _ (by omega) (by omega)
        have h2 : Reach a i1 (Swap d i1 (i1 - 1))
              (if i1 - a ≥ 2 then shiftSmaller (i1 - 1) (Swap d i1 (i1 - 1))
                else Swap d i1 (i1 - 1)) ∧
            SortedOn (if i1 - a ≥ 2 then shiftSmaller (i1 - 1) (Swap d i1 (i1 - 1))
                else Swap d i1 (i1 - 1)) a i1 := by
          by_cases h2a : i1 - a ≥ 2
          · rw [if_pos h2a]
            have hlow1 : LowerOk a (i1 - 1 + 1) (Swap d i1 (i1 - 1)) := by
              intro k hk hkb ha
              exact (hlow.of_reach hr1) k hk (by omega) ha
            have h := shiftSmaller_spec a (i1 - 1) _ (by omega) hs1 hlow1
            have he : i1 - 1 + 1 = i1 := by omega
            rw [he] at h
            exact h
          · rw [if_neg h2a]
            exact ⟨Reach.refl _, fun x y hx hxy hy => by omega⟩
        generalize (if i1 - a ≥ 2 then shiftSmaller (i1 - 1) (Swap d i1 (i1 - 1))
                else Swap d i1 (i1 - 1)) = d2 at h2 ⊢
        have h3 : Reach i1 b d2
            (if b - i1 ≥ 2 then shiftGreater (b - (i1 + 1)) (i1 + 1) d2 else d2) := by
          by_cases h3a : b - i1 ≥ 2
          · rw [if_pos h3a]
            exact shiftGreater_reach i1 b _ _ _ (by omega) (by omega)
          · rw [if_neg h3a]
            exact Reach.refl _
        generalize (if b - i1 ≥ 2 then shiftGreater (b - (i1 + 1)) (i1 + 1) d2 else d2) = d3
          at h3 ⊢
        have hr3 : Reach a b d d3 :=
          (hr1.trans (h2.1.mono (le_refl _) (by omega))).trans (h3.mono (by omega) (le_refl _))
        have hs3 : SortedOn d3 a i1 :=
          SortedOn.congr h2.2 (fun k _ hkb => h3.outside k (Or.inl hkb))
        obtain ⟨hr, hflag⟩ := ih i1 d3 (by omega) (by omega) hs3 (hlow.of_reach hr3)
        exact ⟨hr3.trans hr, hflag⟩

theorem partialInsertionSort_spec (d : Nat → Dependency) (a b : Nat) (hab : a < b)
    (hlow : LowerOk a b d) :
    Reach a b d (partialInsertionSort_func d a b).1 ∧
    ((partialInsertionSort_func d a b).2 = true →
      SortedOn (partialInsertionSort_func d a b).1 a b) :=
  partialInsertionLoop_spec a b 5 (a + 1) d (by omega) (by omega)
    (fun x y hx hxy hy => by omega) hlow

/-! ## `sort.Slice`: heap sort -/

theorem siftDownLoop_spec (hi first lo : Nat) :
    ∀ (fuel root : Nat) (d : Nat → Dependency), lo ≤ root → hi - root ≤ fuel →
      SiftInv first hi lo root d →
      Reach first (first + hi) d (siftDownLoop hi first fuel root d) ∧
      HeapFrom first hi lo (siftDownLoop hi first fuel root d) := by
  intro fuel
  induction fuel with
  | zero =>
    intro root d hlo hf hinv
    simp only [siftDownLoop]
    refine ⟨Reach.refl _, fun k hk => ?_⟩
    by_cases hkr : k = root
    · exact ⟨fun h => by omega, fun h => by omega⟩
    · exact hinv.1 k hk hkr
  | succ fuel ih =>
    intro root d hlo hf hinv
    unfold siftDownLoop
    by_cases hnone : 2 * root + 1 ≥ hi
    · rw [if_pos hnone]
      refine ⟨Reach.refl _, fun k hk => ?_⟩
      by_cases hkr : k = root
      · exact ⟨fun h => by omega, fun h => by omega⟩
      · exact hinv.1 k hk hkr
    · rw [if_neg hnone]
      simp only
      have hc : ∃ c, (if 2 * root + 2 < hi ∧
            Less d (first + (2 * root + 1)) (first + (2 * root + 1) + 1) = true
          then 2 * root + 2 else 2 * root + 1) = c ∧
          (c = 2 * root + 1 ∨ c = 2 * root + 2) ∧ c < hi ∧
          (2 * root + 1 < hi → key (d (first + (2 * root + 1))) ≤ key (d (first + c))) ∧
          (2 * root + 2 < hi → key (d (first + (2 * root + 2))) ≤ key (d (first + c))) := by
        by_cases h2 : 2 * root + 2 < hi ∧
            Less d (first + (2 * root + 1)) (first + (2 * root + 1) + 1) = true
        · rw [if_pos h2]
          refine ⟨_, rfl, Or.inr rfl, h2.1, fun _ => ?_, fun _ => le_refl _⟩
          have h3 := (Less_iff _ _ _).1 h2.2
          have he : first + (2 * root + 1) + 1 = first + (2 * root + 2) := by omega
          rw [he] at h3
          exact le_of_lt h3
        · rw [if_neg h2]
          refine ⟨_, rfl, Or.inl rfl, by omega, fun _ => le_refl _, fun h4 => ?_⟩
          have h5 : Less d (first + (2 * root + 1)) (first + (2 * root + 1) + 1) = false := by
            cases h6 : Less d (first + (2 * root + 1)) (first + (2 * root + 1) + 1)
            · rfl
            · exact absurd ⟨h4, h6⟩ h2
          have h7 := (Less_false_iff _ _ _).1 h5
          have he : first + (2 * root + 1) + 1 = first + (2 * root + 2) := by omega
          rw [he] at h7
          exact h7
      obtain ⟨c, hce, hcc, hchi, hc1, hc2⟩ := hc
      rw [hce]
      by_cases hl : Less d (first + root) (first + c) = true
      · rw [if_pos hl]
        have hlt := (Less_iff _ _ _).1 hl
        have hsw : ∀ k, k ≠ root → k ≠ c →
            Swap d (first + root) (first + c) (first + k) = d (first + k) :=
          fun k h1 h2 => Swap_other _ _ _ _ (by omega) (by omega)
        have hinv1 : SiftInv first hi lo c (Swap d (first + root) (first + c)) := by
          constructor
          · intro k hk hkc
            by_cases hkr : k = root
            · rw [hkr]
              constructor
              · intro h
                rw [Swap_left]
                by_cases he : c = 2 * root + 1
                · rw [← he, Swap_right]
                  exact le_of_lt hlt
                · rw [hsw (2 * root + 1) (by omega) (by omega)]
                  exact hc1 h
              · intro h
                rw [Swap_left]
                by_cases he : c = 2 * root + 2
                · rw [← he, Swap_right]
                  exact le_of_lt hlt
                · rw [hsw (2 * root + 2) (by omega) (by omega)]
                  exact hc2 h
            · have hk0 := hinv.1 k hk hkr
              constructor
              · intro h
                rw [hsw k hkr hkc]
                by_cases he : 2 * k + 1 = root
                · rw [he, Swap_left]
                  exact hinv.2 k hk hkr (Or.inl he.symm) c hcc hchi
                · rw [hsw (2 * k + 1) he (by omega)]
                  exact hk0.1 h
              · intro h
                rw [hsw k hkr hkc]
                by_cases he : 2 * k + 2 = root
                · rw [he, Swap_left]
                  exact hinv.2 k hk hkr (Or.inr he.symm) c hcc hchi
                · rw [hsw (2 * k + 2) he (by omega)]
                  exact hk0.2 h
          · intro k hk hkc hpar g hg hgh
            have hkr : k = root := by omega
            rw [hkr, Swap_left, hsw g (by omega) (by omega)]
            have hcat := hinv.1 c (by omega) (by omega)
            rcases hg with hg | hg
            · rw [hg]
              exact hcat.1 (by omega)
            · rw [hg]
              exact hcat.2 (by omega)
        obtain ⟨hr, hh⟩ := ih c _ (by omega) (by omega) hinv1
        exact ⟨(Reach.one d _ _ (by omega) (by omega) (by omega) (by omega)).trans hr, hh⟩
      · rw [if_neg hl]
        have hle := (Less_false_iff _ _ _).1 (by simpa using hl)
        refine ⟨Reach.refl _, fun k hk => ?_⟩
        by_cases hkr : k = root
        · rw [hkr]
          exact ⟨fun h => le_trans (hc1 h) hle, fun h => le_trans (hc2 h) hle⟩
        · exact hinv.1 k hk hkr

theorem siftDown_spec (d : Nat → Dependency) (lo hi first : Nat)
    (hinv : SiftInv first hi lo lo d) :
    Reach first (first + hi) d (siftDown_func d lo hi first) ∧
    HeapFrom first hi lo (siftDown_func d lo hi first) :=
  siftDownLoop_spec hi first lo hi lo d (le_refl _) (by omega) hinv

theorem SiftInv.of_heapFrom {first hi lo : Nat} {d : Nat → Dependency}
    (h : HeapFrom first hi (lo + 1) d) : SiftInv first hi lo lo d :=
  ⟨fun k hk hkr => h k (by omega), fun k hk hkr hpar => by omega⟩

theorem heapBuild_spec (hi first : Nat) :
    ∀ (m : Nat) (d : Nat → Dependency), HeapFrom first hi m d →
      Reach first (first + hi) d (heapBuild hi first m d) ∧
      HeapFrom first hi 0 (heapBuild hi first m d) := by
  intro m
  induction m with
  | zero =>
    intro d h
    exact ⟨Reach.refl _, h⟩
  | succ m ih =>
    intro d h
    unfold heapBuild
    obtain ⟨hr1, hh1⟩ := siftDown_spec d m hi first (SiftInv.of_heapFrom h)
    obtain ⟨hr2, hh2⟩ := ih _ hh1
    exact ⟨hr1.trans hr2, hh2⟩

theorem heap_root_max (first hi : Nat) (d : Nat → Dependency) (h : HeapFrom first hi 0 d) :
    ∀ x, x < hi → key (d (first + x)) ≤ key (d first) := by
  intro x
  induction x using Nat.strong_induction_on with
  | _ x ih =>
    intro hx
    by_cases h0 : x = 0
    · rw [h0]
      exact le_refl _
    · have hp := h ((x - 1) / 2) (Nat.zero_le _)
      have ihp := ih ((x - 1) / 2) (by omega) (by omega)
      by_cases hodd : x = 2 * ((x - 1) / 2) + 1
      · have h1 := hp.1 (by omega)
        rw [← hodd] at h1
        exact le_trans h1 ihp
      · have heven : x = 2 * ((x - 1) / 2) + 2 := by omega
        have h1 := hp.2 (by omega)
        rw [← heven] at h1
        exact le_trans h1 ihp

theorem heapPop_spec (first hi : Nat) :
    ∀ (m : Nat) (d : Nat → Dependency), m ≤ hi → HeapFrom first m 0 d →
      SortedOn d (first + m) (first + hi) →
      (∀ x y, x < m → m ≤ y → y < hi → key (d (first + x)) ≤ key (d (first + y))) →
      Reach first (first + hi) d (heapPop first m d) ∧
      SortedOn (heapPop first m d) first (first + hi) := by
  intro m
  induction m with
  | zero =>
    intro d _ _ hs _
    exact ⟨Reach.refl _, hs⟩
  | succ m ih =>
    intro d hm hheap hs hcross
    unfold heapPop
    have hmax := heap_root_max first (m + 1) d hheap
    have hr1 : Reach first (first + hi) d (Swap d first (first + m)) :=
      Reach.one d _ _ (le_refl _) (by omega) (by omega) (by omega)
    have hsw : ∀ k, k ≠ 0 → k ≠ m → Swap d first (first + m) (first + k) = d (first + k) :=
      fun k h1 h2 => Swap_other _ _ _ _ (by omega) (by omega)
    have hinv : SiftInv first m 0 0 (Swap d first (first + m)) := by
      constructor
      · intro k hk hkr
        have hk0 := hheap k hk
        constructor
        · intro h
          by_cases hkm : k = m
          · omega
          · rw [hsw k hkr hkm, hsw (2 * k + 1) (by omega) (by omega)]
            exact hk0.1 (by omega)
        · intro h
          by_cases hkm : k = m
          · omega
          · rw [hsw k hkr hkm, hsw (2 * k + 2) (by omega) (by omega)]
            exact hk0.2 (by omega)
      · intro k hk hkr hpar
        omega
    obtain ⟨hr2, hh2⟩ := siftDown_spec _ 0 m first hinv
    have hd1m : Swap d first (first + m) (first + m) = d first := Swap_right _ _ _
    have hlow : ∀ x, x < m → key (siftDown_func (Swap d first (first + m)) 0 m first
        (first + x)) ≤ key (d first) := by
      intro x hx
      refine hr2.forall (fun z => key z ≤ key (d first)) ?_ (first + x) (by omega) (by omega)
      intro k hk hkb
      by_cases hk0 : k = first
      · rw [hk0, Swap_left]
        have := hmax m (by omega)
        exact this
      · rw [Swap_other _ _ _ _ hk0 (by omega)]
        have := hmax (k - first) (by omega)
        rw [show first + (k - first) = k by omega] at this
        exact this
    have hout : ∀ y, m ≤ y → siftDown_func (Swap d first (first + m)) 0 m first (first + y) =
        Swap d first (first + m) (first + y) :=
      fun y hy => hr2.outside (first + y) (Or.inr (by omega))
    have hsorted1 : SortedOn (siftDown_func (Swap d first (first + m)) 0 m first)
        (first + m) (first + hi) := by
      intro x y hx hxy hy
      have hx1 : x = first + (x - first) := by omega
      have hy1 : y = first + (y - first) := by omega
      rw [hx1, hy1, hout _ (by omega), hout _ (by omega)]
      rw [hsw (y - first) (by omega) (by omega)]
      by_cases hxm : x - first = m
      · rw [hxm, hd1m]
        have := hcross 0 (y - first) (by omega) (by omega) (by omega)
        simpa using this
      · rw [hsw (x - first) (by omega) hxm]
        exact hs (first + (x - first)) (first + (y - first)) (by omega) (by omega) (by omega)
    have hcross1 : ∀ x y, x < m → m ≤ y → y < hi →
        key (siftDown_func (Swap d first (first + m)) 0 m first (first + x)) ≤
          key (siftDown_func (Swap d first (first + m)) 0 m first (first + y)) := by
      intro x y hx hmy hy
      rw [hout y hmy]
      by_cases hym : y = m
      · rw [hym, hd1m]
        exact hlow x hx
      · rw [hsw y (by omega) hym]
        refine hr2.forall (fun z => key z ≤ key (d (first + y))) ?_ (first + x) (by omega)
          (by omega)
        intro k hk hkb
        by_cases hk0 : k = first
        · rw [hk0, Swap_left]
          exact hcross m y (by omega) (by omega) hy
        · rw [Swap_other _ _ _ _ hk0 (by omega)]
          have := hcross (k - first) y (by omega) (by omega) hy
          rw [show first + (k - first) = k by omega] at this
          exact this
    obtain ⟨hr3, hs3⟩ := ih _ (by omega) hh2 hsorted1 hcross1
    exact ⟨(hr1.trans (hr2.mono (le_refl _) (by omega))).trans hr3, hs3⟩

theorem heapSort_spec (d : Nat → Dependency) (a b : Nat) (hab : a ≤ b) :
    Reach a b d (heapSort_func d a b) ∧ SortedOn (heapSort_func d a b) a b := by
  unfold heapSort_func
  have h0 : HeapFrom a (b - a) ((b - a - 1) / 2 + 1) d :=
    fun k hk => ⟨fun h => by omega, fun h => by omega⟩
  obtain ⟨hr1, hh1⟩ := heapBuild_spec (b - a) a _ d h0
  obtain ⟨hr2, hs2⟩ := heapPop_spec a (b - a) (b - a) _ (le_refl _) hh1
    (fun x y hx hxy hy => by omega) (fun x y hx hmy hy => by omega)
  have he : a + (b - a) = b := by omega
  rw [he] at hr1 hr2 hs2
  exact ⟨hr1.trans hr2, hs2⟩

/-! ## `sort.Slice`: the main loop -/

theorem SortedOn.glue {d : Nat → Dependency} {a mid b : Nat}
    (h1 : SortedOn d a mid) (h2 : SortedOn d (mid + 1) b)
    (hlo : ∀ k, a ≤ k → k < mid → key (d k) ≤ key (d mid))
    (hhi : ∀ k, mid < k → k < b → key (d mid) ≤ key (d k)) : SortedOn d a b := by
  intro x y hx hxy hy
  by_cases hym : y < mid
  · exact h1 x y hx hxy hym
  · by_cases hye : y = mid
    · rw [hye]
      exact hlo x hx (by omega)
    · by_cases hxm : x < mid
      · exact le_trans (hlo x hx hxm) (hhi y (by omega) hy)
      · by_cases hxe : x = mid
        · rw [hxe]
          exact hhi y (by omega) hy
        · exact h2 x y (by omega) hxy hy

theorem pdqsort_spec :
    ∀ (fuel : Nat) (d : Nat → Dependency) (a b limit : Nat) (wb wp : Bool),
      a ≤ b → b - a ≤ fuel → LowerOk a b d →
      Reach a b d (pdqsort_func fuel d a b limit wb wp) ∧
      SortedOn (pdqsort_func fuel d a b limit wb wp) a b := by
  intro fuel
  induction fuel with
  | zero =>
    intro d a b limit wb wp _ _ _
    simp only [pdqsort_func]
    exact insertionSort_spec d a b
  | succ fuel ih =>
    intro d a b limit wb wp hab hf hlow
    unfold pdqsort_func
    by_cases hsmall : b - a ≤ 12
    · rw [if_pos hsmall]
      exact insertionSort_spec d a b
    · rw [if_neg hsmall]
      by_cases hlim : limit = 0
      · rw [if_pos hlim]
        exact heapSort_spec d a b hab
      · rw [if_neg hlim]
        simp only []
        have h1 : Reach a b d (if wb = true then d else breakPatterns_func d a b) := by
          by_cases hwb : wb = true
          · rw [if_pos hwb]
            exact Reach.refl _
          · rw [if_neg hwb]
            exact breakPatterns_reach d a b
        generalize (if wb = true then d else breakPatterns_func d a b) = data1 at h1 ⊢
        generalize (if wb = true then limit else limit - 1) = limit1
        have hc := choosePivot_mem data1 a b (by omega)
        generalize choosePivot_func data1 a b = c at hc ⊢
        have h2 : Reach a b data1
            (if c.2 = sortedHint.decreasingHint then reverseRange_func data1 a b
              else data1) := by
          by_cases hdec : c.2 = sortedHint.decreasingHint
          · rw [if_pos hdec]
            exact reverseRange_reach data1 a b (by omega)
          · rw [if_neg hdec]
            exact Reach.refl _
        generalize (if c.2 = sortedHint.decreasingHint then reverseRange_func data1 a b
              else data1) = data2 at h2 ⊢
        have hpiv : a ≤ (if c.2 = sortedHint.decreasingHint then b - 1 - (c.1 - a) else c.1) ∧
            (if c.2 = sortedHint.decreasingHint then b - 1 - (c.1 - a) else c.1) < b := by
          by_cases hdec : c.2 = sortedHint.decreasingHint
          · rw [if_pos hdec]
            omega
          · rw [if_neg hdec]
            exact hc
        generalize (if c.2 = sortedHint.decreasingHint then b - 1 - (c.1 - a) else c.1) = pivot
          at hpiv ⊢
        generalize (wb && wp && decide ((if c.2 = sortedHint.decreasingHint then
          sortedHint.increasingHint else c.2) = sortedHint.increasingHint)) = tryPartial
        have hr2 : Reach a b d data2 := h1.trans h2
        have hp := partialInsertionSort_spec data2 a b (by omega) (hlow.of_reach hr2)
        generalize partialInsertionSort_func data2 a b = p at hp ⊢
        by_cases hdone : tryPartial = true ∧ p.2 = true
        · rw [if_pos hdone]
          exact ⟨hr2.trans hp.1, hp.2 hdone.2⟩
        · rw [if_neg hdone]
          have h3 : Reach a b data2 (if tryPartial = true then p.1 else data2) := by
            by_cases htp : tryPartial = true
            · rw [if_pos htp]
              exact hp.1
            · rw [if_neg htp]
              exact Reach.refl _
          generalize (if tryPartial = true then p.1 else data2) = data3 at h3 ⊢
          have hr3 : Reach a b d data3 := hr2.trans h3
          have hlow3 : LowerOk a b data3 := hlow.of_reach hr3
          by_cases heq : a > 0 ∧ Less data3 (a - 1) pivot = false
          · rw [if_pos heq]
            obtain ⟨e1, e2, e3, e4, e5⟩ := partitionEqual_spec data3 a b pivot hpiv.1 hpiv.2
            generalize partitionEqual_func data3 a b pivot = e at e1 e2 e3 e4 e5 ⊢
            have hpk : key (data3 pivot) ≤ key (data3 (a - 1)) := (Less_false_iff _ _ _).1 heq.2
            have hlowe : LowerOk a b e.1 := hlow3.of_reach e1
            have hea : e.1 (a - 1) = data3 (a - 1) := e1.outside (a - 1) (by omega)
            have hlow4 : LowerOk e.2 b e.1 := by
              intro k hk hkb _
              exact le_trans (e4 (e.2 - 1) (by omega) (by omega)) (le_of_lt (e5 k hk hkb))
            obtain ⟨r1, r2⟩ := ih e.1 e.2 b limit1 wb wp e3 (by omega) hlow4
            generalize pdqsort_func fuel e.1 e.2 b limit1 wb wp = out at r1 r2 ⊢
            refine ⟨hr3.trans (e1.trans (r1.mono (by omega) (le_refl _))), ?_⟩
            intro x y hx hxy hy
            by_cases hxm : x < e.2
            · rw [r1.outside x (Or.inl hxm)]
              by_cases hym : y < e.2
              · rw [r1.outside y (Or.inl hym)]
                have g1 := hlowe y (by omega) hy heq.1
                rw [hea] at g1
                exact le_trans (e4 x hx hxm) (le_trans hpk g1)
              · exact le_trans (e4 x hx hxm) (le_of_lt
                  (r1.forall (fun z => key (data3 pivot) < key z) e5 y (by omega) hy))
            · exact r2 x y (by omega) hxy hy
          · rw [if_neg heq]
            obtain ⟨q1, q2, q3, q4, q5, q6⟩ := partition_spec data3 a b pivot hpiv.1 hpiv.2
            generalize partition_func data3 a b pivot = q at q1 q2 q3 q4 q5 q6 ⊢
            have hlowq : LowerOk a b q.1 := hlow3.of_reach q1
            have hlowL : LowerOk a q.2.1 q.1 := fun k hk hkb ha => hlowq k hk (by omega) ha
            have hlowR : LowerOk (q.2.1 + 1) b q.1 := by
              intro k hk hkb _
              have he : q.2.1 + 1 - 1 = q.2.1 := by omega
              rw [he, q5]
              exact q6 k (by omega) hkb
            by_cases hside : q.2.1 - a < b - q.2.1
            · rw [if_pos hside]
              obtain ⟨l1, l2⟩ := ih q.1 a q.2.1 limit1 true true q2 (by omega) hlowL
              generalize pdqsort_func fuel q.1 a q.2.1 limit1 true true = d5 at l1 l2 ⊢
              have hlowR5 : LowerOk (q.2.1 + 1) b d5 := by
                intro k hk hkb h0
                rw [l1.outside k (Or.inr (by omega)), l1.outside _ (Or.inr (by omega))]
                exact hlowR k hk hkb h0
              obtain ⟨r1, r2⟩ := ih d5 (q.2.1 + 1) b limit1
                (decide (q.2.1 - a ≥ (b - a) / 8)) q.2.2 (by omega) (by omega) hlowR5
              generalize pdqsort_func fuel d5 (q.2.1 + 1) b limit1
                (decide (q.2.1 - a ≥ (b - a) / 8)) q.2.2 = out at r1 r2 ⊢
              refine ⟨hr3.trans (q1.trans ((l1.mono (le_refl _) (by omega)).trans
                (r1.mono (by omega) (le_refl _)))), ?_⟩
              have hmid : out q.2.1 = q.1 q.2.1 := by
                rw [r1.outside _ (Or.inl (by omega)), l1.outside _ (Or.inr (by omega))]
              refine SortedOn.glue (SortedOn.congr l2
                (fun k _ hkb => r1.outside k (Or.inl (by omega)))) r2 ?_ ?_
              · intro k hk hkb
                rw [hmid, q5, r1.outside k (Or.inl (by omega))]
                exact le_of_lt (l1.forall (fun z => key z < key (data3 pivot)) q4 k hk hkb)
              · intro k hk hkb
                rw [hmid, q5]
                refine r1.forall (fun z => key (data3 pivot) ≤ key z) ?_ k (by omega) hkb
                intro m hm hmb
                rw [l1.outside m (Or.inr (by omega))]
                exact q6 m (by omega) hmb
            · rw [if_neg hside]
              obtain ⟨r1, r2⟩ := ih q.1 (q.2.1 + 1) b limit1 true true (by omega) (by omega)
                hlowR
              generalize pdqsort_func fuel q.1 (q.2.1 + 1) b limit1 true true = d5 at r1 r2 ⊢
              have hlowL5 : LowerOk a q.2.1 d5 := by
                intro k hk hkb h0
                rw [r1.outside k (Or.inl (by omega)), r1.outside _ (Or.inl (by omega))]
                exact hlowL k hk hkb h0
              obtain ⟨l1, l2⟩ := ih d5 a q.2.1 limit1
                (decide (b - q.2.1 ≥ (b - a) / 8)) q.2.2 q2 (by omega) hlowL5
              generalize pdqsort_func fuel d5 a q.2.1 limit1
                (decide (b - q.2.1 ≥ (b - a) / 8)) q.2.2 = out at l1 l2 ⊢
              refine ⟨hr3.trans (q1.trans ((r1.mono (by omega) (le_refl _)).trans
                (l1.mono (le_refl _) (by omega)))), ?_⟩
              have hmid : out q.2.1 = q.1 q.2.1 := by
                rw [l1.outside _ (Or.inr (by omega)), r1.outside _ (Or.inl (by omega))]
              refine SortedOn.glue l2 (SortedOn.congr r2
                (fun k hk _ => l1.outside k (Or.inr (by omega)))) ?_ ?_
              · intro k hk hkb
                rw [hmid, q5]
                refine le_of_lt (l1.forall (fun z => key z < key (data3 pivot)) ?_ k hk hkb)
                intro m hm hmb
                rw [r1.outside m (Or.inl (by omega))]
                exact q4 m hm hmb
              · intro k hk hkb
                rw [hmid, q5, l1.outside k (Or.inr (by omega))]
                exact r1.forall (fun z => key (data3 pivot) ≤ key z)
                  (fun m hm hmb => q6 m (by omega) hmb) k (by omega) hkb

/-! ## `sort.Slice`: from slices to lists -/

theorem Swap_eq_comp (e : Nat → Dependency) (i j : Nat) :
    Swap e i j = e ∘ (Equiv.swap i j) := by
  funext k
  simp only [Swap, Function.comp, Equiv.swap_apply_def]
  split_ifs <;> rfl

theorem range_map_swap_perm (n i j : Nat) (hi : i < n) (hj : j < n) :
    ((List.range n).map (Equiv.swap i j)).Perm (List.range n) := by
  have hnd : ((List.range n).map (Equiv.swap i j)).Nodup :=
    (List.nodup_range n).map (Equiv.swap i j).injective
  have hsub : (List.range n).map (Equiv.swap i j) ⊆ List.range n := by
    intro x hx
    rw [List.mem_map] at hx
    obtain ⟨k, hk, hkx⟩ := hx
    rw [List.mem_range] at hk ⊢
    rw [← hkx, Equiv.swap_apply_def]
    split_ifs <;> omega
  exact (List.subperm_of_subset hnd hsub).perm_of_length_le (by simp)

theorem Reach.perm_range {n : Nat} {d e : Nat → Dependency} (h : Reach 0 n d e) :
    ((List.range n).map e).Perm ((List.range n).map d) := by
  induction h with
  | refl => exact List.Perm.refl _
  | @swap e0 i j _ hib _ hjb _ ih =>
    rw [Swap_eq_comp, ← List.map_map]
    exact ((range_map_swap_perm n i j hib hjb).map e0).trans ih

theorem range_map_getD (s : List Dependency) :
    (List.range s.length).map (fun i => s.getD i default) = s := by
  apply List.ext_getElem
  · simp
  · intro i h1 h2
    simp only [List.getElem_map, List.getElem_range]
    exact List.getD_eq_getElem s default h2

theorem sortSlice_perm (s : List Dependency) : (sortSlice s).Perm s := by
  have h := (pdqsort_spec s.length (fun i => s.getD i default) 0 s.length
    (bitsLen s.length) true true (Nat.zero_le _) (by omega)
    (fun k _ _ h0 => by omega)).1
  have hp := h.perm_range
  rw [range_map_getD] at hp
  exact hp

theorem sortSlice_sorted (s : List Dependency) : (sortSlice s).Pairwise nameLe := by
  have h := (pdqsort_spec s.length (fun i => s.getD i default) 0 s.length
    (bitsLen s.length) true true (Nat.zero_le _) (by omega)
    (fun k _ _ h0 => by omega)).2
  unfold sortSlice
  rw [List.pairwise_map]
  refine (List.pairwise_lt_range s.length).imp_of_mem ?_
  intro x y _ hy hxy
  rw [List.mem_range] at hy
  exact h x y (Nat.zero_le _) hxy hy

/-! ## `sort.Slice`: insertion sort keeps equal names in order -/

theorem StableReach.chain {a b : Nat} {d e f : Nat → Dependency} (h1 : StableReach a b d e)
    (h2 : StableReach a b e f) : StableReach a b d f := by
  induction h2 with
  | refl => exact h1
  | swap j hj hjb hlt _ ih => exact StableReach.swap j hj hjb hlt ih

theorem StableReach.widen {a b b0 : Nat} {d e : Nat → Dependency} (h : StableReach a b d e)
    (hb : b ≤ b0) : StableReach a b0 d e := by
  induction h with
  | refl => exact StableReach.refl _
  | swap j hj hjb hlt _ ih => exact StableReach.swap j hj (by omega) hlt ih

theorem insertionInner_stable (a : Nat) :
    ∀ (k : Nat) (d : Nat → Dependency), StableReach a (a + k + 1) d (insertionInner a k d) := by
  intro k
  induction k with
  | zero =>
    intro d
    exact StableReach.refl _
  | succ k ih =>
    intro d
    unfold insertionInner
    by_cases hl : Less d (a + k + 1) (a + k) = true
    · rw [if_pos hl]
      have h1 : StableReach a (a + (k + 1) + 1) d (Swap d (a + k + 1) (a + k)) :=
        StableReach.swap (a + k) (by omega) (by omega) ((Less_iff _ _ _).1 hl)
          (StableReach.refl d)
      exact h1.chain ((ih _).widen (by omega))
    · rw [if_neg hl]
      exact StableReach.refl _

theorem insertionOuter_stable (a : Nat) :
    ∀ (m i : Nat) (d : Nat → Dependency), a < i →
      StableReach a (i + m) d (insertionOuter a m i d) := by
  intro m
  induction m with
  | zero =>
    intro i d _
    exact StableReach.refl _
  | succ m ih =>
    intro i d hai
    unfold insertionOuter
    have h0 := insertionInner_stable a (i - a) d
    have hi : a + (i - a) + 1 = i + 1 := by omega
    rw [hi] at h0
    have h1 := ih (i + 1) (insertionInner a (i - a) d) (by omega)
    have he : i + 1 + m = i + (m + 1) := by omega
    rw [he] at h1
    exact (h0.widen (by omega)).chain h1

theorem insertionSort_stable (d : Nat → Dependency) (a b : Nat) :
    StableReach a b d (insertionSort_func d a b) := by
  unfold insertionSort_func
  by_cases hab : a < b
  · have h := insertionOuter_stable a (b - (a + 1)) (a + 1) d (by omega)
    have he : a + 1 + (b - (a + 1)) = b := by omega
    rw [he] at h
    exact h
  · have he : b - (a + 1) = 0 := by omega
    rw [he]
    exact StableReach.refl _

theorem named_succ (name : String) (d : Nat → Dependency) (n : Nat) :
    named name d (n + 1) =
      named name d n ++ (if (d n).Name = name then [d n] else []) := by
  unfold named
  rw [List.range_succ, List.map_append, List.filter_append]
  congr 1
  by_cases h : (d n).Name = name
  · simp [h]
  · simp [h]

theorem named_congr (name : String) (d e : Nat → Dependency) :
    ∀ n, (∀ k, k < n → e k = d k) → named name e n = named name d n := by
  intro n
  induction n with
  | zero => intro _; rfl
  | succ n ih =>
    intro h
    rw [named_succ, named_succ, ih (fun k hk => h k (by omega)), h n (by omega)]

theorem named_swap (name : String) (e : Nat → Dependency) (j : Nat)
    (hlt : key (e (j + 1)) < key (e j)) :
    ∀ n, j + 2 ≤ n → named name (Swap e (j + 1) j) n = named name e n := by
  have hne : ¬ ((e j).Name = name ∧ (e (j + 1)).Name = name) := by
    rintro ⟨h1, h2⟩
    unfold key at hlt
    rw [h1, h2] at hlt
    exact lt_irrefl _ hlt
  intro n hn
  induction n with
  | zero => omega
  | succ n ih =>
    by_cases hbase : n = j + 1
    · rw [hbase, named_succ, named_succ, named_succ, named_succ,
        named_congr name e (Swap e (j + 1) j) j
          (fun k hk => Swap_other _ _ _ _ (by omega) (by omega)),
        Swap_left, Swap_right]
      by_cases h1 : (e j).Name = name
      · have h2 : ¬ (e (j + 1)).Name = name := fun h => hne ⟨h1, h⟩
        simp [h1, h2]
      · simp [h1]
    · rw [named_succ, named_succ, ih (by omega),
        Swap_other _ _ _ _ (by omega) (by omega)]

theorem StableReach.named_eq {n : Nat} {d e : Nat → Dependency} (name : String)
    (h : StableReach 0 n d e) : named name e n = named name d n := by
  induction h with
  | refl => rfl
  | @swap e0 j _ hjb hlt _ ih =>
    rw [named_swap name e0 j hlt n (by omega)]
    exact ih

theorem sortSlice_short (s : List Dependency) (h : s.length ≤ 12) :
    sortSlice s =
      (List.range s.length).map (insertionSort_func (fun i => s.getD i default) 0 s.length) := by
  unfold sortSlice
  cases hn : s.length with
  | zero => simp [pdqsort_func]
  | succ n =>
    rw [hn] at h
    unfold pdqsort_func
    rw [if_pos (by omega)]

/-- On at most twelve records `sort.Slice` is its insertion sort, and records of equal name keep
their order. -/
theorem sortSlice_stable_short (s : List Dependency) (h : s.length ≤ 12) (name : String) :
    (sortSlice s).filter (fun x => decide (x.Name = name)) =
      s.filter (fun x => decide (x.Name = name)) := by
  have h1 := (insertionSort_stable (fun i => s.getD i default) 0 s.length).named_eq name
  unfold named at h1
  rw [range_map_getD] at h1
  rw [sortSlice_short s h]
  exact h1

/-- The routine `sortSlice` is within the contract that `SortSlice` records. -/
theorem sortSlice_within_contract : ∃ S : SortSlice, S.run = sortSlice :=
  ⟨⟨sortSlice, sortSlice_perm, fun s =>
    (sortSlice_sorted s).imp (fun {a b} (h : nameLe a b) => by
      unfold less
      exact decide_eq_false (not_lt.2 h))⟩, rfl⟩

/-! ## The sort -/

/-- C6, counterexample: fourteen gathered records, six named `c`, then one named `b`, then
seven named `a`.  `sort.Slice` picks the record named `b` as pivot and partitions around it by
swapping records from both ends, so the records named `a` come out in the order 1st, 7th, 6th,
5th, 4th, 3rd, 2nd of their gather order and the records named `c` in the order 1st, 6th, 5th,
4th, 3rd, 2nd; both halves are then short enough for insertion sort, which moves nothing.  The
stable sort keeps the gather order among equal names. -/
theorem c6_sort_slice_reorders_ties :
    (report (sortSlice gathered14)).filterMap (fun j => j.field "AbsPath") =
      ["nm/q0/node_modules/a/package.json", "nm/q6/node_modules/a/package.json",
       "nm/q5/node_modules/a/package.json", "nm/q4/node_modules/a/package.json",
       "nm/q3/node_modules/a/package.json", "nm/q2/node_modules/a/package.json",
       "nm/q1/node_modules/a/package.json", "nm/b/package.json",
       "nm/p0/node_modules/c/package.json", "nm/p5/node_modules/c/package.json",
       "nm/p4/node_modules/c/package.json", "nm/p3/node_modules/c/package.json",
       "nm/p2/node_modules/c/package.json", "nm/p1/node_modules/c/package.json"] ∧
    (stableSortByName gathered14).map (fun d => d.AbsPath) =
      ["nm/q0/node_modules/a/package.json", "nm/q1/node_modules/a/package.json",
       "nm/q2/node_modules/a/package.json", "nm/q3/node_modules/a/package.json",
       "nm/q4/node_modules/a/package.json", "nm/q5/node_modules/a/package.json",
       "nm/q6/node_modules/a/package.json", "nm/b/package.json",
       "nm/p0/node_modules/c/package.json", "nm/p1/node_modules/c/package.json",
       "nm/p2/node_modules/c/package.json", "nm/p3/node_modules/c/package.json",
       "nm/p4/node_modules/c/package.json", "nm/p5/node_modules/c/package.json"] ∧
    (sortSlice gathered14).filter (fun x => decide (x.Name = "a")) ≠
      gathered14.filter (fun x => decide (x.Name = "a")) ∧
    sortSlice gathered14 ≠ stableSortByName gathered14 := by
  have h1 : (sortSlice gathered14).map (fun d => d.AbsPath) =
      ["nm/q0/node_modules/a/package.json", "nm/q6/node_modules/a/package.json",
       "nm/q5/node_modules/a/package.json", "nm/q4/node_modules/a/package.json",
       "nm/q3/node_modules/a/package.json", "nm/q2/node_modules/a/package.json",
       "nm/q1/node_modules/a/package.json", "nm/b/package.json",
       "nm/p0/node_modules/c/package.json", "nm/p5/node_modules/c/package.json",
       "nm/p4/node_modules/c/package.json", "nm/p3/node_modules/c/package.json",
       "nm/p2/node_modules/c/package.json", "nm/p1/node_modules/c/package.json"] := by
    decide
  have h2 : (stableSortByName gathered14).map (fun d => d.AbsPath) =
      ["nm/q0/node_modules/a/package.json", "nm/q1/node_modules/a/package.json",
       "nm/q2/node_modules/a/package.json", "nm/q3/node_modules/a/package.json",
       "nm/q4/node_modules/a/package.json", "nm/q5/node_modules/a/package.json",
       "nm/q6/node_modules/a/package.json", "nm/b/package.json",
       "nm/p0/node_modules/c/package.json", "nm/p1/node_modules/c/package.json",
       "nm/p2/node_modules/c/package.json", "nm/p3/node_modules/c/package.json",
       "nm/p4/node_modules/c/package.json", "nm/p5/node_modules/c/package.json"] := by
    decide
  refine ⟨?_, h2, by decide, fun h => ?_⟩
  · rw [report_filterMap_absPath]
    exact h1
  · rw [h] at h1
    rw [h1] at h2
    exact absurd h2 (by decide)

/-- C6, amended: for every gathered sequence of records, the report lists exactly the gathered
records, in ascending order of Name (case-sensitive lexical comparison); records with equal
Name keep the relative order in which they were gathered when at most twelve records were
gathered (`sort.Slice` is then an insertion sort), and need not keep it otherwise. -/
theorem report_sorted_by_name (s : List Dependency) :
    (sortSlice s).Perm s ∧
    (sortSlice s).Pairwise nameLe ∧
    ((report (sortSlice s)).filterMap (fun j => j.field "Name")).Pairwise
      (fun a b => a.data ≤ b.data) ∧
    (s.length ≤ 12 → ∀ name : String,
      (sortSlice s).filter (fun x => decide (x.Name = name)) =
        s.filter (fun x => decide (x.Name = name))) := by
  refine ⟨sortSlice_perm s, sortSlice_sorted s, ?_, sortSlice_stable_short s⟩
  rw [report_filterMap_name, List.pairwise_map]
  exact sortSlice_sorted s

/-- C6, amended, at two gathered records of the same name. -/
theorem report_sorted_by_name_witness :
    (sortSlice [recordA1, recordA2]).Perm [recordA1, recordA2] ∧
    (sortSlice [recordA1, recordA2]).Pairwise nameLe ∧
    ((report (sortSlice [recordA1, recordA2])).filterMap (fun j => j.field "Name")).Pairwise
      (fun a b => a.data ≤ b.data) ∧
    ([recordA1, recordA2].length ≤ 12 → ∀ name : String,
      (sortSlice [recordA1, recordA2]).filter (fun x => decide (x.Name = name)) =
        [recordA1, recordA2].filter (fun x => decide (x.Name = name))) :=
  report_sorted_by_name [recordA1, recordA2]

/-! ## The serialisation -/

/-- C7, counterexample: the object written for a record has the keys `Name`, `Version`,
`Description`, `Homepage`, `AbsPath`, `License`; none of the six keys of the claim is among
them. -/
theorem c7_keys_are_go_field_names :
    (marshal recordA1).keys =
      ["Name", "Version", "Description", "Homepage", "AbsPath", "License"] ∧
    (∀ k ∈ ["name", "version", "description", "homepage", "license", "absolutePath"],
      k ∉ (marshal recordA1).keys ∧ (marshal recordA1).field k = none) ∧
    report [recordA1] = [marshal recordA1] := by
  refine ⟨rfl, ?_, rfl⟩
  intro k hk
  simp only [List.mem_cons, List.mem_singleton, List.not_mem_nil, or_false] at hk
  rcases hk with h | h | h | h | h | h <;> subst h <;> exact ⟨by decide, rfl⟩

/-- C7, amended: for every record sequence, each object of the report is written for one of
the records and contains exactly the six keys `Name`, `Version`, `Description`, `Homepage`,
`AbsPath`, `License` (the Go field names, in that order), holding the corresponding values of
that record. -/
theorem report_object_keys (s : List Dependency) (j : JSON) (hj : j ∈ report s) :
    ∃ d ∈ s, j = marshal d ∧
      j.keys = ["Name", "Version", "Description", "Homepage", "AbsPath", "License"] ∧
      j.field "Name" = some d.Name ∧ j.field "Version" = some d.Version ∧
      j.field "Description" = some d.Description ∧ j.field "Homepage" = some d.Homepage ∧
      j.field "AbsPath" = some d.AbsPath ∧ j.field "License" = some d.License := by
  unfold report at hj
  rw [List.mem_map] at hj
  obtain ⟨d, hd, hdj⟩ := hj
  subst hdj
  exact ⟨d, hd, rfl, rfl, rfl, rfl, rfl, rfl, rfl, rfl⟩

/-- C7, amended, at the report of one record. -/
theorem report_object_keys_witness :
    ∃ d ∈ [recordA1], marshal recordA1 = marshal d ∧
      (marshal recordA1).keys =
        ["Name", "Version", "Description", "Homepage", "AbsPath", "License"] ∧
      (marshal recordA1).field "Name" = some d.Name ∧
      (marshal recordA1).field "Version" = some d.Version ∧
      (marshal recordA1).field "Description" = some d.Description ∧
      (marshal recordA1).field "Homepage" = some d.Homepage ∧
      (marshal recordA1).field "AbsPath" = some d.AbsPath ∧
      (marshal recordA1).field "License" = some d.License :=
  report_object_keys [recordA1] (marshal recordA1) (by simp [report])

/-! ## `pathWalk` -/

/-- C10, the code at the failing input: below `nm` the walk collects `nm/a/package.json` and
then meets a directory that cannot be read; `filepath.Walk` returns that error, and `pathWalk`
returns the collected path with a nil error. -/
theorem pathWalk_drops_walk_error :
    Walk "nm" treeUnreadable = (["nm/a/package.json"], true) ∧
    pathWalk "nm" treeUnreadable = .ok ["nm/a/package.json"] := by
  decide

end NpmOss
